import Mathlib

/-!
# Verification of the repository-map generator (`src/backend/src/utils/repomap.ts`)

This file gives a shallow embedding, in Lean 4, of the repository-map core:
the reference-graph ranker (`getRankedTags`), the token estimator
(`token_count`), the tree assembler (`to_tree`), the budget-fitting binary
search inside `get_ranked_tags_map_uncached`, the public entry point
`get_repo_map`, and the structural context renderer (`TreeContext` from the
second module concatenated into the source file).

Modelling conventions (each noted again at the definition it concerns):

* JavaScript numbers are modelled as `ℚ` (all arithmetic in the source is
  exact on the values that occur, except `Math.sqrt`, which is modelled as an
  uninterpreted parameter `sqrtFn : ℕ → ℚ` since it is a float primitive).
* JS `Map`/`Set` preserve insertion order, so they are modelled as
  association lists / duplicate-free lists with append-at-end insertion.
* External collaborators (tree-sitter parsing, the file system, the
  `graphology` PageRank routine, and the per-file excerpt renderer
  `render_tree`, which reads files and parses them) are parameters of the
  model: `raw` (per-file extracted tags), `rel` (path relativisation),
  `pagerankFn`, `render`.
* The `while` loop of the budget fitter is modelled with explicit fuel;
  `none` means the fuel ran out, and the termination theorem shows fuel
  `num_tags + 2` always suffices.
-/

namespace RepoMapModel

/-- JS `Set.add`: append if absent, keeping insertion order. -/
def setAdd {α : Type} [DecidableEq α] (l : List α) (x : α) : List α :=
  if x ∈ l then l else l ++ [x]

/-- `new Set([...xs])` as a list: first occurrence kept, insertion order preserved. -/
def jsDedup {α : Type} [DecidableEq α] (l : List α) : List α :=
  l.foldl setAdd []

/-- JS `String.prototype.startsWith`, modelled on the character list (the
built-in `String.startsWith` goes through `Substring` primitives that do not
reduce in the kernel; prefix-of-characters is the same function). -/
def jsStartsWith (s p : String) : Bool := p.toList.isPrefixOf s.toList

/-- JS `Map.get`: first (unique) matching key. -/
def alFind {β : Type} : List (String × β) → String → Option β
  | [], _ => none
  | p :: rest, k => if p.1 = k then some p.2 else alFind rest k

/-- JS `map.get(k)` followed by an in-place update, inserting `f d` when the
key is absent (the source's `if (!m.has(k)) m.set(k, empty); m.get(k)!.add/push(x)`
pattern). Keys stay unique and keep their insertion position. -/
def alUpsert {β : Type} : List (String × β) → String → β → (β → β) → List (String × β)
  | [], k, d, f => [(k, f d)]
  | p :: rest, k, d, f =>
    if p.1 = k then (p.1, f p.2) :: rest else p :: alUpsert rest k d f

theorem alFind_upsert {β : Type} (m : List (String × β)) (k : String) (d : β)
    (f : β → β) (k' : String) :
    alFind (alUpsert m k d f) k' =
      if k' = k then some (f ((alFind m k).getD d)) else alFind m k' := by
  induction m with
  | nil =>
    simp only [alUpsert, alFind]
    by_cases h : k' = k
    · subst h; simp
    · rw [if_neg (fun hh => h hh.symm), if_neg h]
  | cons p rest ih =>
    simp only [alUpsert]
    by_cases hp : p.1 = k
    · rw [if_pos hp]
      simp only [alFind]
      by_cases hc : p.1 = k'
      · have hkk : k' = k := by rw [← hc, hp]
        rw [if_pos hc, if_pos hkk]
        simp [alFind, hp]
      · have hkk : ¬ k' = k := fun h => hc (by rw [hp, ← h])
        rw [if_neg hc, if_neg hkk]
        simp [alFind, hc]
    · rw [if_neg hp]
      simp only [alFind]
      by_cases hc : p.1 = k'
      · have hkk : ¬ k' = k := fun h => hp (by rw [hc, h])
        rw [if_pos hc, if_neg hkk]
        simp [alFind, hc]
      · rw [if_neg hc, ih]
        by_cases hk : k' = k
        · rw [if_pos hk, if_pos hk]
          simp [alFind, hp]
        · rw [if_neg hk, if_neg hk]
          simp [alFind, hc]

/-! ## Tags and extraction (`interface Tag`, `getTags`) -/

/-- `tag.kind`, the strings `'def'` / `'ref'` in the source. -/
inductive TagKind
  | defn
  | refn
deriving DecidableEq, Repr

/-- `interface Tag` (repomap.ts lines 25-31). -/
structure Tag where
  rel_fname : String
  fname : String
  line : ℕ
  name : String
  kind : TagKind
deriving DecidableEq, Repr

/-- One capture produced by `getTagsRaw` before the relative path is stamped:
name, classified kind, 1-based line. -/
structure RawTag where
  name : String
  kind : TagKind
  line : ℕ
deriving DecidableEq, Repr

/-- `getTags(fname, rel_fname)`: tree-sitter extraction is external, so the
per-file capture list (after `getTagsRaw`'s ref-without-def discard) is the
parameter `raw`; `getTags` stamps the relative and absolute path into each
tag, exactly as `getTagsRaw` does at lines 273-279. The mtime cache is
value-transparent within one call and is not modelled. -/
def getTags (raw : String → List RawTag) (fname rel : String) : List Tag :=
  (raw fname).map (fun r => ⟨rel, fname, r.line, r.name, r.kind⟩)

/-! ## The reference graph (`getRankedTags`, lines 297-458) -/

/-- The three maps built by the first pass of `getRankedTags`
(lines 333-363): `defines` (ident → Set of defining rel paths),
`references` (ident → list of referencing rel paths, duplicates kept),
`definitions` (`"rel:name"` → list of definition tags; the source stores a
`Set<Tag>` of distinct objects, so it never deduplicates). -/
structure TagMaps where
  defines : List (String × List String)
  references : List (String × List String)
  definitions : List (String × List Tag)

/-- Processing of one tag in the first pass (lines 344-362). -/
def addTag (rel : String) (m : TagMaps) (t : Tag) : TagMaps :=
  match t.kind with
  | .defn =>
    let m1 := { m with defines := alUpsert m.defines t.name [] (fun s => setAdd s rel) }
    { m1 with definitions :=
        alUpsert m1.definitions (rel ++ ":" ++ t.name) [] (fun l => l ++ [t]) }
  | .refn =>
    { m with references := alUpsert m.references t.name [] (fun l => l ++ [rel]) }

/-- The whole first pass: iterate the deduplicated file set, fetch each
file's tags, and bucket them (lines 338-363). -/
def buildTagMaps (raw : String → List RawTag) (rel : String → String)
    (fnames : List String) : TagMaps :=
  fnames.foldl (fun m f => (getTags raw f (rel f)).foldl (addTag (rel f)) m) ⟨[], [], []⟩

/-- A directed edge with its `{weight, ident}` attributes (line 388). -/
structure REdge where
  src : String
  dst : String
  weight : ℚ
  ident : String
deriving DecidableEq, Repr

/-- The graphology digraph, restricted to what the source uses: node list
and edge list, both in insertion order. -/
structure RGraph where
  nodes : List String
  edges : List REdge
deriving DecidableEq, Repr

/-- `graph.addNode` guarded by `hasNode` (lines 383-384). -/
def RGraph.addNode (g : RGraph) (n : String) : RGraph :=
  if n ∈ g.nodes then g else { g with nodes := g.nodes ++ [n] }

/-- `graph.hasDirectedEdge(referencer, definer)` (line 387). -/
def RGraph.hasDirectedEdge (g : RGraph) (s d : String) : Prop :=
  ∃ e ∈ g.edges, e.src = s ∧ e.dst = d

instance (g : RGraph) (s d : String) : Decidable (g.hasDirectedEdge s d) := by
  unfold RGraph.hasDirectedEdge; infer_instance

/-- The base weight of line 368-369: 2 for a caller-mentioned identifier,
0.5 for a leading underscore, 1 otherwise. -/
def baseWeight (mentioned_idents : List String) (ident : String) : ℚ :=
  if ident ∈ mentioned_idents then 2 else if jsStartsWith ident "_" then 1/2 else 1

/-- Innermost loop body of the second pass (lines 371-394): one
`(definer, referencer)` pair. Skips empty endpoint names, computes
`edgeWeight = weight * Math.sqrt(refs.length)`, inserts both nodes, and adds
the edge unless a `(referencer, definer)` edge already exists. -/
def refStep (sqrtFn : ℕ → ℚ) (w : ℚ) (nrefs : ℕ) (ident definer : String)
    (g : RGraph) (referencer : String) : RGraph :=
  if definer = "" ∨ referencer = "" then g
  else
    let ew := w * sqrtFn nrefs
    let g := (g.addNode definer).addNode referencer
    if g.hasDirectedEdge referencer definer then g
    else { g with edges := g.edges ++ [⟨referencer, definer, ew, ident⟩] }

/-- Loop over the referencers of one identifier for a fixed definer. -/
def defStep (sqrtFn : ℕ → ℚ) (refs : List String) (w : ℚ) (ident : String)
    (g : RGraph) (definer : String) : RGraph :=
  refs.foldl (refStep sqrtFn w refs.length ident definer) g

/-- Loop body for one `defines` entry (lines 366-370): look up the
identifier's accumulated reference list and base weight, then loop over its
definers. -/
def identStep (sqrtFn : ℕ → ℚ) (mentioned_idents : List String)
    (references : List (String × List String)) (g : RGraph)
    (p : String × List String) : RGraph :=
  let refs := (alFind references p.1).getD []
  let w := baseWeight mentioned_idents p.1
  p.2.foldl (defStep sqrtFn refs w p.1) g

/-- The second pass of `getRankedTags` (lines 366-404): for every identifier
with definers, weight its reference edges and insert them. `Math.sqrt` is a
float primitive, modelled by the uninterpreted parameter `sqrtFn`. -/
def buildGraph (sqrtFn : ℕ → ℚ) (mentioned_idents : List String)
    (defines references : List (String × List String)) : RGraph :=
  defines.foldl (identStep sqrtFn mentioned_idents references) ⟨[], []⟩

/-- The output walk of lines 427-431: collect the definition-tag lists whose
key starts with `fname + ":"`, in map insertion order. -/
def rankWalkFile (definitions : List (String × List Tag)) (fname : String) : List Tag :=
  definitions.foldl (fun acc p => if jsStartsWith p.1 (fname ++ ":") then acc ++ p.2 else acc) []

/-- `getRankedTags` (lines 297-458). `pagerankFn` models the external
`graphology-metrics` PageRank call; the ranked entries are then sorted by
descending score (stable, like V8's `Array.prototype.sort`). The walk skips
entries listed in `chat_fnames` (line 425). The single-file shortcut
(lines 311-329) returns the file's extracted tags directly; its `!singleFile`
guard is falsy only for the empty string. `_mentioned_files` is unused, as in
the source. -/
def getRankedTags (raw : String → List RawTag) (rel : String → String)
    (pagerankFn : RGraph → List (String × ℚ)) (sqrtFn : ℕ → ℚ)
    (chat_fnames other_fnames : List String)
    (_mentioned_files mentioned_idents : List String) : List Tag :=
  match jsDedup (chat_fnames ++ other_fnames) with
  | [singleFile] =>
    if singleFile = "" then [] else getTags raw singleFile (rel singleFile)
  | fnames =>
    let m := buildTagMaps raw rel fnames
    let graph := buildGraph sqrtFn mentioned_idents m.defines m.references
    let rankedEntries := (pagerankFn graph).mergeSort (fun a b => decide (b.2 ≤ a.2))
    rankedEntries.foldl
      (fun acc e => if e.1 ∈ chat_fnames then acc else acc ++ rankWalkFile m.definitions e.1)
      []

/-- Total number of reference occurrences of `ident` across all input files,
counted directly over the extracted tags (the claim's `referenceCount`). -/
def refOccurrences (raw : String → List RawTag) (rel : String → String)
    (fnames : List String) (ident : String) : ℕ :=
  (fnames.map (fun f =>
    ((getTags raw f (rel f)).filter (fun t => t.kind = .refn ∧ t.name = ident)).length)).sum

/-! ## Lemmas: the accumulated reference list counts reference occurrences -/

theorem RGraph.edges_addNode (g : RGraph) (n : String) : (g.addNode n).edges = g.edges := by
  unfold RGraph.addNode
  split <;> rfl

theorem addTag_references (rel : String) (m : TagMaps) (t : Tag) :
    (addTag rel m t).references =
      if t.kind = .refn then alUpsert m.references t.name [] (fun l => l ++ [rel])
      else m.references := by
  obtain ⟨a, b, c, nm, kd⟩ := t
  cases kd <;> simp [addTag]

theorem foldTags_refs_length (rel ident : String) (ts : List Tag) (m : TagMaps) :
    ((alFind (ts.foldl (addTag rel) m).references ident).getD []).length =
      ((alFind m.references ident).getD []).length +
        (ts.filter (fun t => t.kind = .refn ∧ t.name = ident)).length := by
  induction ts generalizing m with
  | nil => simp
  | cons t ts ih =>
    simp only [List.foldl_cons, ih]
    rw [addTag_references]
    by_cases hk : t.kind = .refn
    · rw [if_pos hk, alFind_upsert]
      by_cases hn : ident = t.name
      · subst hn
        rw [if_pos rfl, List.filter_cons_of_pos (by simp [hk])]
        simp only [Option.getD_some, List.length_append, List.length_cons, List.length_nil]
        omega
      · rw [if_neg hn, List.filter_cons_of_neg (by simp; intro; exact fun hc => hn hc.symm)]
    · rw [if_neg hk, List.filter_cons_of_neg (by simp [hk])]

theorem buildTagMaps_refs_length (raw : String → List RawTag) (rel : String → String)
    (fnames : List String) (ident : String) :
    ((alFind (buildTagMaps raw rel fnames).references ident).getD []).length =
      refOccurrences raw rel fnames ident := by
  have aux : ∀ (fs : List String) (m : TagMaps),
      ((alFind (fs.foldl
          (fun m f => (getTags raw f (rel f)).foldl (addTag (rel f)) m) m).references
            ident).getD []).length =
        ((alFind m.references ident).getD []).length + refOccurrences raw rel fs ident := by
    intro fs
    induction fs with
    | nil => intro m; simp [refOccurrences]
    | cons f fs ih =>
      intro m
      simp only [List.foldl_cons, ih, foldTags_refs_length, refOccurrences,
        List.map_cons, List.sum_cons]
      omega
  have := aux fnames ⟨[], [], []⟩
  simpa [buildTagMaps, alFind] using this

/-! ## Lemmas: every edge inserted by the second pass carries the formula weight -/

theorem foldl_edges_or {α : Type} (step : RGraph → α → RGraph) (Q : REdge → Prop)
    (h : ∀ g a e, e ∈ (step g a).edges → e ∈ g.edges ∨ Q e) :
    ∀ (l : List α) (g : RGraph) (e : REdge), e ∈ (l.foldl step g).edges → e ∈ g.edges ∨ Q e := by
  intro l
  induction l with
  | nil => exact fun g e he => Or.inl he
  | cons a l ih =>
    intro g e he
    rcases ih (step g a) e he with hmem | hq
    · exact h g a e hmem
    · exact Or.inr hq

theorem refStep_edges (sqrtFn : ℕ → ℚ) (w : ℚ) (nrefs : ℕ) (ident definer : String)
    (g : RGraph) (referencer : String) (e : REdge)
    (he : e ∈ (refStep sqrtFn w nrefs ident definer g referencer).edges) :
    e ∈ g.edges ∨ (e.ident = ident ∧ e.weight = w * sqrtFn nrefs) := by
  unfold refStep at he
  split at he
  · exact Or.inl he
  · dsimp only at he
    split at he
    · rw [RGraph.edges_addNode, RGraph.edges_addNode] at he
      exact Or.inl he
    · simp only [RGraph.edges_addNode, List.mem_append, List.mem_singleton] at he
      rcases he with hmem | heq
      · exact Or.inl hmem
      · subst heq; exact Or.inr ⟨rfl, rfl⟩

theorem identStep_edges (sqrtFn : ℕ → ℚ) (mentioned_idents : List String)
    (references : List (String × List String)) (g : RGraph) (p : String × List String)
    (e : REdge) (he : e ∈ (identStep sqrtFn mentioned_idents references g p).edges) :
    e ∈ g.edges ∨
      e.weight = baseWeight mentioned_idents e.ident *
        sqrtFn ((alFind references e.ident).getD []).length := by
  unfold identStep at he
  have h := foldl_edges_or (defStep sqrtFn ((alFind references p.1).getD [])
      (baseWeight mentioned_idents p.1) p.1)
    (fun e => e.ident = p.1 ∧
      e.weight = baseWeight mentioned_idents p.1 *
        sqrtFn ((alFind references p.1).getD []).length)
    (fun g definer e hme => by
      unfold defStep at hme
      exact foldl_edges_or _ _
        (fun g referencer e hre => refStep_edges _ _ _ _ _ _ _ _ hre) _ g e hme)
    p.2 g e he
  rcases h with hmem | ⟨hident, hw⟩
  · exact Or.inl hmem
  · exact Or.inr (by rw [hident]; exact hw)

theorem buildGraph_edge_weight (sqrtFn : ℕ → ℚ) (mentioned_idents : List String)
    (defines references : List (String × List String)) (e : REdge)
    (he : e ∈ (buildGraph sqrtFn mentioned_idents defines references).edges) :
    e.weight = baseWeight mentioned_idents e.ident *
      sqrtFn ((alFind references e.ident).getD []).length := by
  unfold buildGraph at he
  have h := foldl_edges_or (identStep sqrtFn mentioned_idents references)
    (fun e => e.weight = baseWeight mentioned_idents e.ident *
      sqrtFn ((alFind references e.ident).getD []).length)
    (fun g p e hme => identStep_edges sqrtFn mentioned_idents references g p e hme)
    defines ⟨[], []⟩ e he
  rcases h with hmem | hq
  · simp at hmem
  · exact hq

/-- C1: every reference-to-definition edge added to the reference graph by
`getRankedTags` carries weight `baseWeight * sqrt(referenceCount)`, with
`baseWeight` 2 for a caller-mentioned identifier, 0.5 for a leading
underscore, 1 otherwise, and `referenceCount` the total number of reference
occurrences of that identifier across all input files. (`Math.sqrt` is the
uninterpreted parameter `sqrtFn`.) -/
theorem c1_edge_weight_formula (raw : String → List RawTag) (rel : String → String)
    (sqrtFn : ℕ → ℚ) (mentioned_idents chat_fnames other_fnames : List String)
    (e : REdge)
    (he : e ∈ (buildGraph sqrtFn mentioned_idents
        (buildTagMaps raw rel (jsDedup (chat_fnames ++ other_fnames))).defines
        (buildTagMaps raw rel (jsDedup (chat_fnames ++ other_fnames))).references).edges) :
    e.weight =
      (if e.ident ∈ mentioned_idents then 2
       else if jsStartsWith e.ident "_" then 1/2 else 1) *
        sqrtFn (refOccurrences raw rel (jsDedup (chat_fnames ++ other_fnames)) e.ident) := by
  have h := buildGraph_edge_weight sqrtFn mentioned_idents _ _ e he
  rw [buildTagMaps_refs_length] at h
  simpa [baseWeight] using h

/-- Witness for C1: two files, `a` defining `foo` once and `b` referencing it
once, produce exactly the edge `b → a` with weight `1 * sqrtFn 1`. -/
theorem c1_edge_weight_formula_witness :
    (⟨"b", "a", (1 : ℚ), "foo"⟩ : REdge) ∈ (buildGraph (fun n => (n : ℚ)) []
        (buildTagMaps
          (fun f => if f = "a" then [⟨"foo", .defn, 1⟩]
                    else if f = "b" then [⟨"foo", .refn, 2⟩] else [])
          (fun s => s) (jsDedup (([] : List String) ++ ["a", "b"]))).defines
        (buildTagMaps
          (fun f => if f = "a" then [⟨"foo", .defn, 1⟩]
                    else if f = "b" then [⟨"foo", .refn, 2⟩] else [])
          (fun s => s) (jsDedup (([] : List String) ++ ["a", "b"]))).references).edges ∧
    (⟨"b", "a", (1 : ℚ), "foo"⟩ : REdge).weight =
      (if (⟨"b", "a", (1 : ℚ), "foo"⟩ : REdge).ident ∈ ([] : List String) then 2
       else if jsStartsWith (⟨"b", "a", (1 : ℚ), "foo"⟩ : REdge).ident "_" then 1/2 else 1) *
        (fun n => (n : ℚ))
          (refOccurrences
            (fun f => if f = "a" then [⟨"foo", .defn, 1⟩]
                      else if f = "b" then [⟨"foo", .refn, 2⟩] else [])
            (fun s => s) (jsDedup (([] : List String) ++ ["a", "b"]))
            (⟨"b", "a", (1 : ℚ), "foo"⟩ : REdge).ident) := by
  have hmem : (⟨"b", "a", (1 : ℚ), "foo"⟩ : REdge) ∈ (buildGraph (fun n => (n : ℚ)) []
      (buildTagMaps
        (fun f => if f = "a" then [⟨"foo", .defn, 1⟩]
                  else if f = "b" then [⟨"foo", .refn, 2⟩] else [])
        (fun s => s) (jsDedup (([] : List String) ++ ["a", "b"]))).defines
      (buildTagMaps
        (fun f => if f = "a" then [⟨"foo", .defn, 1⟩]
                  else if f = "b" then [⟨"foo", .refn, 2⟩] else [])
        (fun s => s) (jsDedup (([] : List String) ++ ["a", "b"]))).references).edges := by
    simp +decide [buildGraph, buildTagMaps, getTags, addTag, alUpsert, alFind, jsDedup,
      setAdd, identStep, defStep, refStep, baseWeight, RGraph.addNode,
      RGraph.hasDirectedEdge]
  exact ⟨hmem, c1_edge_weight_formula _ _ _ _ _ _ _ hmem⟩

/-- C2: when the deduplicated union of chat and other files is a single
file, `getRankedTags` returns that file's extracted tag list verbatim, and
the result does not depend on the PageRank routine or on `Math.sqrt`
(no graph is built, no ranking runs). -/
theorem c2_single_file_shortcut (raw : String → List RawTag) (rel : String → String)
    (pr pr' : RGraph → List (String × ℚ)) (sq sq' : ℕ → ℚ)
    (chat_fnames other_fnames mf mi : List String) (f : String)
    (h : jsDedup (chat_fnames ++ other_fnames) = [f]) (hf : f ≠ "") :
    getRankedTags raw rel pr sq chat_fnames other_fnames mf mi = getTags raw f (rel f) ∧
    getRankedTags raw rel pr sq chat_fnames other_fnames mf mi =
      getRankedTags raw rel pr' sq' chat_fnames other_fnames mf mi := by
  unfold getRankedTags
  rw [h]
  simp [hf]

/-! ## The token estimator (`token_count`, lines 460-484) -/

/-- `token_count(text)` (lines 460-484), modelled on the character list
(`text.length`, `text.split('\n')`, `join('\n')` become `toList.length`,
`toList.splitOn '\n'`, `intercalate ['\n']`): strings under 200 characters
return `length/4` (JS float division, no flooring); otherwise the source
keeps the lines at indices `i % step === 0` with
`step = max(1, floor(numLines/100))`, joins them with newlines, sets
`sample_tokens = sampleLength/4`, and returns
`Math.floor((sample_tokens / sampleLength) * length)`. -/
def token_count (text : String) : ℚ :=
  let len_text := text.toList.length
  if len_text < 200 then (len_text : ℚ) / 4
  else
    let lines := text.toList.splitOn '\n'
    let step := max 1 (lines.length / 100)
    let sample_lines := (lines.enum.filter (fun p => p.1 % step == 0)).map Prod.snd
    let sample_text := List.intercalate ['\n'] sample_lines
    let sample_tokens : ℚ := (sample_text.length : ℚ) / 4
    ((⌊(sample_tokens / (sample_text.length : ℚ)) * (len_text : ℚ)⌋ : ℤ) : ℚ)

theorem two_mem_two_le_length {α : Type} {l : List α} {a b : α}
    (ha : a ∈ l) (hb : b ∈ l) (hne : a ≠ b) : 2 ≤ l.length := by
  rcases l with _ | ⟨x, _ | ⟨y, rest⟩⟩
  · simp at ha
  · simp at ha hb
    exact absurd (ha.trans hb.symm) hne
  · simp [Nat.le_add_left]

theorem intercalate_cons_cons {α : Type} (c : α) (a b : List α) (t : List (List α)) :
    List.intercalate [c] (a :: b :: t) = a ++ c :: List.intercalate [c] (b :: t) := by
  simp [List.intercalate, List.intersperse]

/-- The joined sample of `token_count` is never empty for a text of at least
200 characters: a single-line text samples the whole text, and a multi-line
text samples at least the lines at indices `0` and `step`, so the joined
sample contains at least one newline. -/
theorem token_count_sample_ne_zero (text : String) (h : 200 ≤ text.toList.length) :
    (List.intercalate ['\n']
      (((text.toList.splitOn '\n').enum.filter
          (fun p => p.1 % max 1 ((text.toList.splitOn '\n').length / 100) == 0)).map
        Prod.snd)).length ≠ 0 := by
  set lines := text.toList.splitOn '\n' with hlines
  set step := max 1 (lines.length / 100) with hstep
  have hne : lines ≠ [] := by
    rw [hlines]
    simp only [List.splitOn]
    exact List.splitOnP_ne_nil _ _
  have hpos : 0 < lines.length := List.length_pos.mpr hne
  by_cases h1 : lines.length = 1
  · obtain ⟨l0, hl0⟩ := List.length_eq_one.mp h1
    have hstep1 : step = 1 := by rw [hstep, h1]; decide
    have hsample : (lines.enum.filter (fun p => p.1 % step == 0)) = lines.enum := by
      apply List.filter_eq_self.mpr
      intro p _
      simp [hstep1, Nat.mod_one]
    rw [hsample, List.enum_map_snd, hl0]
    have hone : List.intercalate ['\n'] [l0] = l0 := by
      simp [List.intercalate]
    rw [hone]
    have hsp := List.intercalate_splitOn text.toList '\n'
    rw [← hlines, hl0, hone] at hsp
    rw [hsp]
    omega
  · have hlen2 : 2 ≤ lines.length := by omega
    have hstep_pos : 0 < step := by rw [hstep]; omega
    have hstep_lt : step < lines.length := by
      have hd : lines.length / 100 < lines.length :=
        Nat.div_lt_self (by omega) (by omega)
      rw [hstep]
      omega
    have h0 : ((0 : ℕ), lines.get ⟨0, by omega⟩) ∈
        lines.enum.filter (fun p => p.1 % step == 0) := by
      rw [List.mem_filter]
      refine ⟨?_, by simp⟩
      have h0e : lines.enum.get ⟨0, by rw [List.enum_length]; omega⟩ =
          (0, lines.get ⟨0, by omega⟩) := List.getElem_enum _ _ _
      rw [← h0e]
      exact List.get_mem _ _ _
    have hs : ((step : ℕ), lines.get ⟨step, hstep_lt⟩) ∈
        lines.enum.filter (fun p => p.1 % step == 0) := by
      rw [List.mem_filter]
      refine ⟨?_, by simp⟩
      have hse : lines.enum.get ⟨step, by rw [List.enum_length]; omega⟩ =
          (step, lines.get ⟨step, hstep_lt⟩) := List.getElem_enum _ _ _
      rw [← hse]
      exact List.get_mem _ _ _
    have hne2 : ((0 : ℕ), lines.get ⟨0, by omega⟩) ≠
        ((step : ℕ), lines.get ⟨step, hstep_lt⟩) := by
      intro hc
      have hfst := congrArg Prod.fst hc
      simp only at hfst
      omega
    have h2 : 2 ≤ ((lines.enum.filter (fun p => p.1 % step == 0)).map Prod.snd).length := by
      rw [List.length_map]
      exact two_mem_two_le_length h0 hs hne2
    rcases hm : (lines.enum.filter (fun p => p.1 % step == 0)).map Prod.snd
      with _ | ⟨a, _ | ⟨b, t⟩⟩
    · rw [hm] at h2; simp at h2
    · rw [hm] at h2; simp at h2
    · rw [hm, intercalate_cons_cons]
      simp

/-- The algebraic cancellation at the heart of C10:
`floor((L/4)/L * n) = floor(n/4)` whenever the sample length `L` is not 0. -/
theorem floor_quarter_cancel (L n : ℕ) (hL : L ≠ 0) :
    ((⌊((L : ℚ) / 4) / (L : ℚ) * (n : ℚ)⌋ : ℤ) : ℚ) = ((⌊(n : ℚ) / 4⌋ : ℤ) : ℚ) := by
  have hLq : (L : ℚ) ≠ 0 := Nat.cast_ne_zero.mpr hL
  have harg : ((L : ℚ) / 4) / (L : ℚ) * (n : ℚ) = (n : ℚ) / 4 := by
    field_simp
    ring
  rw [harg]

/-- C10: for any string of at least 200 characters, the sampling in
`token_count` cancels algebraically and the result is exactly
`floor(length/4)`; for a shorter string the result is `length/4` with no
flooring. -/
theorem c10_token_count_floor (text : String) :
    (200 ≤ text.toList.length →
      token_count text = ((⌊(text.toList.length : ℚ) / 4⌋ : ℤ) : ℚ)) ∧
    (text.toList.length < 200 →
      token_count text = (text.toList.length : ℚ) / 4) := by
  constructor
  · intro h
    have hsl := token_count_sample_ne_zero text h
    unfold token_count
    rw [if_neg (by omega)]
    exact floor_quarter_cancel _ _ hsl
  · intro h
    unfold token_count
    rw [if_pos h]

/-- Witness for C10: a 200-character string estimates to exactly 50 tokens. -/
theorem c10_token_count_floor_witness :
    token_count (String.mk (List.replicate 200 'a')) = 50 := by
  have hlen : (String.mk (List.replicate 200 'a')).toList.length = 200 := by
    rw [show (String.mk (List.replicate 200 'a')).toList = List.replicate 200 'a' from rfl]
    rw [List.length_replicate]
  have h := (c10_token_count_floor (String.mk (List.replicate 200 'a'))).1 (by omega)
  rw [h, hlen]
  norm_num

/-- Witness for C2 at the concrete call `chat = ["x"], other = ["x"]`. -/
theorem c2_single_file_shortcut_witness :
    getRankedTags (fun _ => [⟨"foo", .defn, 3⟩]) (fun s => s ++ "!")
        (fun _ => []) (fun _ => 0) ["x"] ["x"] [] [] =
      getTags (fun _ => [⟨"foo", .defn, 3⟩]) "x" ("x" ++ "!") ∧
    getRankedTags (fun _ => [⟨"foo", .defn, 3⟩]) (fun s => s ++ "!")
        (fun _ => []) (fun _ => 0) ["x"] ["x"] [] [] =
      getRankedTags (fun _ => [⟨"foo", .defn, 3⟩]) (fun s => s ++ "!")
        (fun _ => [("y", 5)]) (fun _ => 7) ["x"] ["x"] [] [] :=
  c2_single_file_shortcut _ _ _ _ _ _ _ _ _ _ "x" (by decide) (by decide)

/-! ## The tree assembler (`to_tree`, lines 639-725) -/

/-- An element of the ranked-tag list fed to `to_tree`: a full tag from the
ranker, or one of the path-only pseudo-tags (`{ rel_fname: fn } as Tag`,
line 561) prepended for important files, which lack the `line` property. -/
inductive RTag
  | real (t : Tag)
  | pathOnly (rel : String)
deriving DecidableEq, Repr

/-- `tag.rel_fname` of a ranked tag. -/
def RTag.relName : RTag → String
  | .real t => t.rel_fname
  | .pathOnly r => r

/-- A stream element of the `to_tree` loop: a ranked tag, or the sentinel
`dummy_tag` (lines 653-659), whose `rel_fname` is `null` (and which does
carry a `line` property, value 0). -/
inductive StreamTag
  | ofR (r : RTag)
  | dummy
deriving DecidableEq, Repr

/-- `tag.rel_fname` of a stream element; `none` models `null`. -/
def StreamTag.relOf : StreamTag → Option String
  | .ofR (.real t) => some t.rel_fname
  | .ofR (.pathOnly r) => some r
  | .dummy => none

/-- `'line' in tag`: true for extracted tags and the dummy, false for the
path-only pseudo-tags. -/
def StreamTag.hasLine : StreamTag → Bool
  | .ofR (.real _) => true
  | .ofR (.pathOnly _) => false
  | .dummy => true

/-- `tag.line` where present (the dummy's is 0). -/
def StreamTag.lineOf : StreamTag → ℕ
  | .ofR (.real t) => t.line
  | _ => 0

/-- `tag.fname` (the dummy's is `''`; a path-only tag's is only read in
branches its missing `line` property already rules out). -/
def StreamTag.fnameOf : StreamTag → String
  | .ofR (.real t) => t.fname
  | _ => ""

/-- JS truthiness of `cur_fname` / `tag.rel_fname`: non-null and non-empty. -/
def optTruthy : Option String → Bool
  | some s => !(s == "")
  | none => false

/-- `chat_rel_fnames.has(tag.rel_fname)` (line 672); `has(null)` is false on
a set of strings. -/
def chatSkip (chat_rel : List String) (tag : StreamTag) : Bool :=
  match tag.relOf with
  | some r => r ∈ chat_rel
  | none => false

/-- Loop state of `to_tree`: `cur_fname`, `cur_abs_fname`, `lois`, `output`
(lines 647-650). -/
structure TTState where
  cur : Option String
  curAbs : Option String
  lois : Option (List ℕ)
  out : String
deriving DecidableEq, Repr

/-- The file-change flush (lines 682-690): when lines of interest were
accumulated and both names are truthy, emit `"\n{cur}:\n" + render(...)` and
null out `lois`; otherwise, when `cur_fname` is truthy, emit the bare
`"\n{cur}\n"` header. -/
def flushFile (render : String → String → List ℕ → String) (st : TTState) : TTState :=
  match st.lois, st.cur, st.curAbs with
  | some l, some c, some a =>
    if c ≠ "" ∧ a ≠ "" then
      { st with out := st.out ++ "\n" ++ c ++ ":\n" ++ render a c l, lois := none }
    else if c ≠ "" then { st with out := st.out ++ "\n" ++ c ++ "\n" }
    else st
  | _, some c, _ =>
    if c ≠ "" then { st with out := st.out ++ "\n" ++ c ++ "\n" } else st
  | _, _, _ => st

/-- One iteration of the `for (const tag of tagsToProcess)` loop
(lines 668-706): skip chat files; on a file change flush the previous file
and initialise `lois`/`cur_abs_fname` when the new tag has a truthy path and
a `line` property; finally push the tag's line when `lois` is active. -/
def processTag (render : String → String → List ℕ → String) (chat_rel : List String)
    (st : TTState) (tag : StreamTag) : TTState :=
  if chatSkip chat_rel tag then st
  else
    let st1 :=
      if tag.relOf ≠ st.cur then
        let stf := flushFile render st
        let sti :=
          if optTruthy tag.relOf ∧ tag.hasLine then
            { stf with lois := some [], curAbs := some tag.fnameOf }
          else stf
        { sti with cur := tag.relOf }
      else st
    if st1.lois ≠ none ∧ tag.hasLine then
      { st1 with lois := some ((st1.lois.getD []) ++ [tag.lineOf]) }
    else st1

/-- `output.split('\n')` on the character list. -/
def jsSplitNl (s : String) : List String :=
  (s.toList.splitOn '\n').map (fun l => String.mk l)

/-- `lines.join('\n')` on the character list. -/
def jsJoinNl (ls : List String) : String :=
  String.mk (List.intercalate ['\n'] (ls.map String.toList))

/-- `line.slice(0, 100)`. -/
def jsSlice100 (s : String) : String := String.mk (s.toList.take 100)

/-- The final truncation of `to_tree` (lines 718-720):
`output.split('\n').map(line => line.slice(0, 100)).join('\n') + '\n'`. -/
def truncateLines (out : String) : String :=
  jsJoinNl ((jsSplitNl out).map jsSlice100) ++ "\n"

/-- The final single-file flush of `to_tree` (lines 709-715): when
`cur_fname`, `cur_abs_fname` and `lois` are all set, append the header and
excerpt of the last file. -/
def finalFlush (render : String → String → List ℕ → String) (st : TTState) : TTState :=
  match st.lois, st.cur, st.curAbs with
  | some l, some c, some a =>
    if c ≠ "" ∧ a ≠ "" then
      { st with out := st.out ++ "\n" ++ c ++ ":\n" ++ render a c l }
    else st
  | _, _, _ => st

/-- `to_tree(tags, chat_rel_fnames)` (lines 639-725): empty input short
circuits to `''`; a single-file input processes the tags without the
sentinel and renders in a final flush; a multi-file input appends the
sentinel `dummy_tag` to force the last flush inside the loop. `render`
models `render_tree` (file reading plus `TreeContext`, external state). -/
def to_tree (render : String → String → List ℕ → String) (tags : List RTag)
    (chat_rel : List String) : String :=
  if tags = [] then ""
  else
    let isSingleFile := (jsDedup (tags.map RTag.relName)).length = 1
    let stream := tags.map StreamTag.ofR ++ (if isSingleFile then [] else [StreamTag.dummy])
    let st := stream.foldl (processTag render chat_rel) ⟨none, none, none, ""⟩
    let st2 := if isSingleFile then finalFlush render st else st
    truncateLines st2.out

/-! ## Lemmas for the chat-file exclusion claim -/

/-- One rendered block of `to_tree` output: a header plus excerpt
(`"\n{rel}:\n" + render(abs, rel, lois)`) or a bare header (`"\n{rel}\n"`). -/
def segText (render : String → String → List ℕ → String)
    (s : String × Option (String × List ℕ)) : String :=
  match s.2 with
  | some (a, l) => "\n" ++ s.1 ++ ":\n" ++ render a s.1 l
  | none => "\n" ++ s.1 ++ "\n"

theorem join_snoc (l : List String) (s : String) :
    String.join (l ++ [s]) = String.join l ++ s := by
  simp [String.join, List.foldl_append]

/-- The output built so far is a concatenation of blocks, each for a
non-chat, non-empty relative path. -/
def NoChatOut (render : String → String → List ℕ → String) (chat_rel : List String)
    (out : String) : Prop :=
  ∃ segs : List (String × Option (String × List ℕ)),
    out = String.join (segs.map (segText render)) ∧
    ∀ s ∈ segs, s.1 ∉ chat_rel ∧ s.1 ≠ ""

/-- The loop invariant: the output is in block form and the current file, if
set, is not a chat file. -/
def TTInv (render : String → String → List ℕ → String) (chat_rel : List String)
    (st : TTState) : Prop :=
  NoChatOut render chat_rel st.out ∧ ∀ c, st.cur = some c → c ∉ chat_rel

theorem noChatOut_append (render : String → String → List ℕ → String)
    (chat_rel : List String) (out : String)
    (h : NoChatOut render chat_rel out) (s : String × Option (String × List ℕ))
    (hs : s.1 ∉ chat_rel) (hne : s.1 ≠ "") :
    NoChatOut render chat_rel (out ++ segText render s) := by
  obtain ⟨segs, hout, hall⟩ := h
  refine ⟨segs ++ [s], ?_, ?_⟩
  · rw [hout, List.map_append, List.map_singleton, join_snoc]
  · intro x hx
    rcases List.mem_append.mp hx with hx | hx
    · exact hall x hx
    · rw [List.mem_singleton.mp hx]
      exact ⟨hs, hne⟩

theorem noChatOut_append_name (render : String → String → List ℕ → String)
    (chat_rel : List String) (out c : String)
    (hout : NoChatOut render chat_rel out) (hs : c ∉ chat_rel) (hne : c ≠ "") :
    NoChatOut render chat_rel (out ++ "\n" ++ c ++ "\n") := by
  rw [String.append_assoc out "\n" c, String.append_assoc out ("\n" ++ c) "\n"]
  exact noChatOut_append render chat_rel out hout (c, none) hs hne

theorem noChatOut_append_render (render : String → String → List ℕ → String)
    (chat_rel : List String) (out c a : String) (l : List ℕ)
    (hout : NoChatOut render chat_rel out) (hs : c ∉ chat_rel) (hne : c ≠ "") :
    NoChatOut render chat_rel (out ++ "\n" ++ c ++ ":\n" ++ render a c l) := by
  rw [String.append_assoc out "\n" c, String.append_assoc out ("\n" ++ c) ":\n",
    String.append_assoc out (("\n" ++ c) ++ ":\n") (render a c l)]
  exact noChatOut_append render chat_rel out hout (c, some (a, l)) hs hne

theorem flushFile_inv (render : String → String → List ℕ → String)
    (chat_rel : List String) (st : TTState) (h : TTInv render chat_rel st) :
    TTInv render chat_rel (flushFile render st) ∧
      (flushFile render st).cur = st.cur := by
  obtain ⟨cur, curAbs, lois, out⟩ := st
  obtain ⟨hout, hcur⟩ := h
  simp only at hout
  rcases lois with _ | l <;> rcases cur with _ | c <;> rcases curAbs with _ | a <;>
    simp only [flushFile]
  · exact ⟨⟨hout, hcur⟩, by trivial⟩
  · exact ⟨⟨hout, hcur⟩, by trivial⟩
  · split
    · next hc => exact ⟨⟨noChatOut_append_name _ _ _ _ hout (hcur c rfl) hc, hcur⟩, by trivial⟩
    · exact ⟨⟨hout, hcur⟩, by trivial⟩
  · split
    · next hc => exact ⟨⟨noChatOut_append_name _ _ _ _ hout (hcur c rfl) hc, hcur⟩, by trivial⟩
    · exact ⟨⟨hout, hcur⟩, by trivial⟩
  · exact ⟨⟨hout, hcur⟩, by trivial⟩
  · exact ⟨⟨hout, hcur⟩, by trivial⟩
  · split
    · next hc => exact ⟨⟨noChatOut_append_name _ _ _ _ hout (hcur c rfl) hc, hcur⟩, by trivial⟩
    · exact ⟨⟨hout, hcur⟩, by trivial⟩
  · split
    · next hca =>
      exact ⟨⟨noChatOut_append_render _ _ _ _ _ _ hout (hcur c rfl) hca.1, hcur⟩, by trivial⟩
    · split
      · next hc => exact ⟨⟨noChatOut_append_name _ _ _ _ hout (hcur c rfl) hc, hcur⟩, by trivial⟩
      · exact ⟨⟨hout, hcur⟩, by trivial⟩

theorem processTag_inv (render : String → String → List ℕ → String)
    (chat_rel : List String) (st : TTState) (tag : StreamTag)
    (h : TTInv render chat_rel st) :
    TTInv render chat_rel (processTag render chat_rel st tag) := by
  have hf := flushFile_inv render chat_rel st h
  unfold processTag
  split
  · exact h
  next hskip =>
    have hrel : ∀ r, tag.relOf = some r → r ∉ chat_rel := by
      intro r hr hmem
      apply hskip
      unfold chatSkip
      rw [hr]
      exact decide_eq_true hmem
    dsimp only
    by_cases hch : tag.relOf ≠ st.cur
    · simp only [if_pos hch]
      by_cases hopt : optTruthy tag.relOf ∧ tag.hasLine
      · simp only [if_pos hopt]
        split
        · exact ⟨hf.1.1, fun c hc => hrel c hc⟩
        · exact ⟨hf.1.1, fun c hc => hrel c hc⟩
      · simp only [if_neg hopt]
        split
        · exact ⟨hf.1.1, fun c hc => hrel c hc⟩
        · exact ⟨hf.1.1, fun c hc => hrel c hc⟩
    · simp only [if_neg hch]
      split
      · exact ⟨h.1, fun c hc => h.2 c hc⟩
      · exact h

theorem foldl_processTag_inv (render : String → String → List ℕ → String)
    (chat_rel : List String) (stream : List StreamTag) (st : TTState)
    (h : TTInv render chat_rel st) :
    TTInv render chat_rel (stream.foldl (processTag render chat_rel) st) := by
  induction stream generalizing st with
  | nil => exact h
  | cons t ts ih => exact ih _ (processTag_inv _ _ _ _ h)

/-- The chat check at the top of the loop makes a skipped tag a no-op. -/
theorem processTag_skip (render : String → String → List ℕ → String)
    (chat_rel : List String) (st : TTState) (tag : StreamTag)
    (h : chatSkip chat_rel tag = true) :
    processTag render chat_rel st tag = st := by
  unfold processTag
  rw [if_pos h]

/-- The `to_tree` loop gives the same final state as the loop over the
stream with all chat-file tags dropped: the assembler skips exactly the tags
whose relative path is a chat file's relative path. -/
theorem foldl_processTag_filter (render : String → String → List ℕ → String)
    (chat_rel : List String) (stream : List StreamTag) (st : TTState) :
    stream.foldl (processTag render chat_rel) st =
      (stream.filter (fun tag => !chatSkip chat_rel tag)).foldl
        (processTag render chat_rel) st := by
  induction stream generalizing st with
  | nil => rfl
  | cons t ts ih =>
    by_cases hc : chatSkip chat_rel t = true
    · rw [List.foldl_cons, processTag_skip _ _ _ _ hc,
        List.filter_cons_of_neg (by simp [hc]), ih]
    · rw [List.foldl_cons,
        List.filter_cons_of_pos (by simp [Bool.not_eq_true] at hc; simp [hc]),
        List.foldl_cons, ih]

/-- The final single-file flush keeps the output in non-chat block form. -/
theorem finalFlush_noChat (render : String → String → List ℕ → String)
    (chat_rel : List String) (st : TTState) (h : TTInv render chat_rel st) :
    NoChatOut render chat_rel (finalFlush render st).out := by
  obtain ⟨cur, curAbs, lois, out⟩ := st
  obtain ⟨hout, hcur⟩ := h
  simp only at hout
  rcases lois with _ | l <;> rcases cur with _ | c <;> rcases curAbs with _ | a <;>
    simp only [finalFlush]
  any_goals exact hout
  split
  · next hca => exact noChatOut_append_render _ _ _ _ _ _ hout (hcur c rfl) hca.1
  · exact hout

/-- The `to_tree` output is `''` (empty input) or a concatenation of
rendered blocks, each belonging to a non-chat relative path: a chat file's
header and excerpt never occur in the assembled text. -/
theorem to_tree_noChat (render : String → String → List ℕ → String)
    (tags : List RTag) (chat_rel : List String) :
    to_tree render tags chat_rel = "" ∨
      ∃ segs : List (String × Option (String × List ℕ)),
        to_tree render tags chat_rel =
          truncateLines (String.join (segs.map (segText render))) ∧
        ∀ s ∈ segs, s.1 ∉ chat_rel ∧ s.1 ≠ "" := by
  unfold to_tree
  split
  · exact Or.inl rfl
  · right
    dsimp only
    have hinv0 : TTInv render chat_rel ⟨none, none, none, ""⟩ := by
      refine ⟨⟨[], rfl, by simp⟩, ?_⟩
      intro c hc
      simp at hc
    split
    · have hinv := foldl_processTag_inv render chat_rel
        (tags.map StreamTag.ofR ++ []) ⟨none, none, none, ""⟩ hinv0
      obtain ⟨segs, hseq, hall⟩ := finalFlush_noChat render chat_rel _ hinv
      exact ⟨segs, by rw [hseq], hall⟩
    · have hinv := foldl_processTag_inv render chat_rel
        (tags.map StreamTag.ofR ++ [StreamTag.dummy]) ⟨none, none, none, ""⟩ hinv0
      obtain ⟨segs, hseq, hall⟩ := hinv.1
      exact ⟨segs, by rw [hseq], hall⟩

theorem mem_alUpsert {β : Type} (m : List (String × β)) (k : String) (d : β)
    (f : β → β) : ∀ p ∈ alUpsert m k d f,
      p ∈ m ∨ (p.1 = k ∧ p.2 = f ((alFind m k).getD d)) := by
  induction m with
  | nil =>
    intro p hp
    rw [List.mem_singleton.mp hp]
    exact Or.inr ⟨rfl, rfl⟩
  | cons q rest ih =>
    intro p hp
    by_cases hq : q.1 = k
    · simp only [alUpsert, if_pos hq] at hp
      rcases List.mem_cons.mp hp with hpq | hpr
      · right
        rw [hpq]
        exact ⟨hq, by simp [alFind, hq]⟩
      · exact Or.inl (List.mem_cons_of_mem _ hpr)
    · simp only [alUpsert, if_neg hq] at hp
      rcases List.mem_cons.mp hp with hpq | hpr
      · exact Or.inl (hpq ▸ List.mem_cons_self _ _)
      · rcases ih p hpr with hm | ⟨hk, hv⟩
        · exact Or.inl (List.mem_cons_of_mem _ hm)
        · right
          refine ⟨hk, ?_⟩
          rw [hv]
          simp [alFind, hq]

theorem alFind_mem {β : Type} (m : List (String × β)) (k : String) (v : β)
    (h : alFind m k = some v) : (k, v) ∈ m := by
  induction m with
  | nil => simp [alFind] at h
  | cons q rest ih =>
    by_cases hq : q.1 = k
    · simp only [alFind, if_pos hq] at h
      have : (k, v) = q := by
        obtain ⟨q1, q2⟩ := q
        dsimp only at hq h
        injection h with h2
        rw [hq, h2]
      rw [this]
      exact List.mem_cons_self _ _
    · simp only [alFind, if_neg hq] at h
      exact List.mem_cons_of_mem _ (ih h)

/-- Every entry of the `definitions` map associates the key
`"{rel}:{name}"` with tags whose `rel_fname` is the relativisation of one of
the input files. -/
def DefSpec (rel : String → String) (fnames : List String) (m : TagMaps) : Prop :=
  ∀ p ∈ m.definitions, ∀ t ∈ p.2,
    p.1 = t.rel_fname ++ ":" ++ t.name ∧ ∃ f ∈ fnames, t.rel_fname = rel f

theorem addTag_defspec (rel : String → String) (fnames : List String) (rf : String)
    (m : TagMaps) (t : Tag) (hspec : DefSpec rel fnames m) (ht : t.rel_fname = rf)
    (hrf : ∃ f ∈ fnames, rf = rel f) : DefSpec rel fnames (addTag rf m t) := by
  obtain ⟨ta, tb, tc, tnm, tkd⟩ := t
  cases tkd
  · intro p hp t' ht'
    simp only [addTag] at hp
    rcases mem_alUpsert _ _ _ _ p hp with hm | ⟨hk, hv⟩
    · exact hspec p hm t' ht'
    · rw [hv] at ht'
      rcases List.mem_append.mp ht' with hold | hnew
      · rcases hfind : alFind m.definitions (rf ++ ":" ++ tnm) with _ | ts
        · rw [hfind] at hold
          simp at hold
        · rw [hfind] at hold
          simp only [Option.getD_some] at hold
          have hsp := hspec (rf ++ ":" ++ tnm, ts) (alFind_mem _ _ _ hfind) t' hold
          exact ⟨by rw [hk]; exact hsp.1, hsp.2⟩
      · rw [List.mem_singleton.mp hnew]
        simp only at ht ⊢
        subst ht
        exact ⟨hk, hrf⟩
  · intro p hp t' ht'
    simp only [addTag] at hp
    exact hspec p hp t' ht'

theorem buildTagMaps_defspec (raw : String → List RawTag) (rel : String → String)
    (fnames : List String) : DefSpec rel fnames (buildTagMaps raw rel fnames) := by
  have aux : ∀ (fs : List String) (m : TagMaps), (∀ f ∈ fs, f ∈ fnames) →
      DefSpec rel fnames m →
      DefSpec rel fnames (fs.foldl
        (fun m f => (getTags raw f (rel f)).foldl (addTag (rel f)) m) m) := by
    intro fs
    induction fs with
    | nil => intro m _ h; exact h
    | cons f fs ih =>
      intro m hsub h
      rw [List.foldl_cons]
      refine ih _ (fun g hg => hsub g (List.mem_cons_of_mem _ hg)) ?_
      have hstamp : ∀ t ∈ getTags raw f (rel f), t.rel_fname = rel f := by
        intro t htm
        obtain ⟨r, _, hr⟩ := List.mem_map.mp htm
        rw [← hr]
      have hf : f ∈ fnames := hsub f (List.mem_cons_self _ _)
      revert h hstamp
      generalize getTags raw f (rel f) = ts
      intro h hstamp
      induction ts generalizing m with
      | nil => exact h
      | cons t ts iht =>
        rw [List.foldl_cons]
        exact iht _ (addTag_defspec rel fnames (rel f) m t h
            (hstamp t (List.mem_cons_self _ _)) ⟨f, hf, rfl⟩)
          (fun t' ht' => hstamp t' (List.mem_cons_of_mem _ ht'))
  refine aux fnames ⟨[], [], []⟩ (fun f hf => hf) ?_
  intro p hp
  simp at hp

/-- List-level core of the key-prefix argument: if neither `f` nor `r`
contains a colon, and `f ++ ":"` is a prefix of `r ++ ":" ++ n`, then
`f = r`. -/
theorem colon_prefix_unique (f : List Char) : ∀ (r n : List Char),
    ':' ∉ f → ':' ∉ r → (f ++ [':']) <+: (r ++ ':' :: n) → f = r := by
  induction f with
  | nil =>
    intro r n _ hr h
    cases r with
    | nil => rfl
    | cons b rs =>
      rw [List.nil_append, List.cons_append] at h
      have hb := (List.cons_prefix_cons.mp h).1
      exact absurd (by rw [hb]; exact List.mem_cons_self _ _ : (':' : Char) ∈ b :: rs) hr
  | cons a fs ih =>
    intro r n hf hr h
    cases r with
    | nil =>
      rw [List.nil_append, List.cons_append] at h
      have ha := (List.cons_prefix_cons.mp h).1
      exact absurd (by rw [← ha]; exact List.mem_cons_self _ _ : (':' : Char) ∈ a :: fs)
        hf
    | cons b rs =>
      rw [List.cons_append, List.cons_append] at h
      have h' := List.cons_prefix_cons.mp h
      have hfs : ':' ∉ fs := fun hm => hf (List.mem_cons_of_mem _ hm)
      have hrs : ':' ∉ rs := fun hm => hr (List.mem_cons_of_mem _ hm)
      rw [h'.1, ih rs n hfs hrs h'.2]

/-- String-level key-prefix uniqueness: a colon-free walk node name `f`
matches a `definitions` key `"{r}:{name}"` (colon-free `r`) only for
`f = r`. -/
theorem jsStartsWith_key (r nm f : String) (hr : ':' ∉ r.toList)
    (hfc : ':' ∉ f.toList)
    (h : jsStartsWith (r ++ ":" ++ nm) (f ++ ":") = true) : f = r := by
  unfold jsStartsWith at h
  have h1 : (f ++ ":").toList = f.toList ++ [':'] := by
    show (f ++ ":").data = f.data ++ [':']
    rw [String.data_append]
  have h2 : (r ++ ":" ++ nm).toList = r.toList ++ ':' :: nm.toList := by
    show (r ++ ":" ++ nm).data = r.data ++ ':' :: nm.data
    rw [String.data_append, String.data_append, List.append_assoc]
    exact rfl
  rw [h1, h2] at h
  have hp := List.isPrefixOf_iff_prefix.mp h
  have := colon_prefix_unique f.toList r.toList nm.toList hfc hr hp
  exact String.ext this

theorem mem_rankWalkFile (definitions : List (String × List Tag)) (f : String)
    (t : Tag) (h : t ∈ rankWalkFile definitions f) :
    ∃ p ∈ definitions, jsStartsWith p.1 (f ++ ":") = true ∧ t ∈ p.2 := by
  unfold rankWalkFile at h
  have aux : ∀ (ds : List (String × List Tag)) (acc : List Tag),
      t ∈ ds.foldl
        (fun acc p => if jsStartsWith p.1 (f ++ ":") then acc ++ p.2 else acc) acc →
      t ∈ acc ∨ ∃ p ∈ ds, jsStartsWith p.1 (f ++ ":") = true ∧ t ∈ p.2 := by
    intro ds
    induction ds with
    | nil => intro acc h; exact Or.inl h
    | cons p ds ih =>
      intro acc h
      rw [List.foldl_cons] at h
      rcases ih _ h with hacc | ⟨q, hq, hs, htq⟩
      · by_cases hj : jsStartsWith p.1 (f ++ ":") = true
        · rw [if_pos hj] at hacc
          rcases List.mem_append.mp hacc with h1 | h2
          · exact Or.inl h1
          · exact Or.inr ⟨p, List.mem_cons_self _ _, hj, h2⟩
        · rw [if_neg hj] at hacc
          exact Or.inl hacc
      · exact Or.inr ⟨q, List.mem_cons_of_mem _ hq, hs, htq⟩
  rcases aux definitions [] h with h0 | hex
  · simp at h0
  · exact hex

theorem mem_rankWalk (rankedEntries : List (String × ℚ))
    (definitions : List (String × List Tag)) (chat_fnames : List String) (t : Tag)
    (h : t ∈ rankedEntries.foldl
      (fun acc e => if e.1 ∈ chat_fnames then acc
                    else acc ++ rankWalkFile definitions e.1) []) :
    ∃ e ∈ rankedEntries, e.1 ∉ chat_fnames ∧ t ∈ rankWalkFile definitions e.1 := by
  have aux : ∀ (es : List (String × ℚ)) (acc : List Tag),
      t ∈ es.foldl
        (fun acc e => if e.1 ∈ chat_fnames then acc
                      else acc ++ rankWalkFile definitions e.1) acc →
      t ∈ acc ∨ ∃ e ∈ es, e.1 ∉ chat_fnames ∧ t ∈ rankWalkFile definitions e.1 := by
    intro es
    induction es with
    | nil => intro acc h; exact Or.inl h
    | cons e es ih =>
      intro acc h
      rw [List.foldl_cons] at h
      rcases ih _ h with hacc | ⟨q, hq, hs, htq⟩
      · by_cases hc : e.1 ∈ chat_fnames
        · rw [if_pos hc] at hacc
          exact Or.inl hacc
        · rw [if_neg hc] at hacc
          rcases List.mem_append.mp hacc with h1 | h2
          · exact Or.inl h1
          · exact Or.inr ⟨e, List.mem_cons_self _ _, hc, h2⟩
      · exact Or.inr ⟨q, List.mem_cons_of_mem _ hq, hs, htq⟩
  rcases aux rankedEntries [] h with h0 | hex
  · simp at h0
  · exact hex

/-- The output walk of `getRankedTags` (lines 420-432) never emits a tag
whose relative path is listed in `chat_fnames`, for any ranking the external
PageRank routine returns over colon-free node names. -/
theorem walk_excludes_chat (raw : String → List RawTag) (rel : String → String)
    (pagerankFn : RGraph → List (String × ℚ)) (sqrtFn : ℕ → ℚ)
    (fnames chat_fnames mi : List String)
    (hrelc : ∀ f ∈ fnames, ':' ∉ (rel f).toList)
    (hpr : ∀ q ∈ pagerankFn (buildGraph sqrtFn mi (buildTagMaps raw rel fnames).defines
        (buildTagMaps raw rel fnames).references), ':' ∉ q.1.toList)
    (t : Tag)
    (ht : t ∈ ((pagerankFn (buildGraph sqrtFn mi (buildTagMaps raw rel fnames).defines
          (buildTagMaps raw rel fnames).references)).mergeSort
            (fun a b => decide (b.2 ≤ a.2))).foldl
        (fun acc e => if e.1 ∈ chat_fnames then acc
                      else acc ++ rankWalkFile (buildTagMaps raw rel fnames).definitions e.1)
        []) :
    t.rel_fname ∉ chat_fnames := by
  intro hmem
  obtain ⟨e, he, hec, htw⟩ := mem_rankWalk _ _ _ _ ht
  have hee := List.mem_mergeSort.mp he
  have hef : ':' ∉ e.1.toList := hpr e hee
  obtain ⟨p, hp, hjs, htp⟩ := mem_rankWalkFile _ _ _ htw
  obtain ⟨hkey, f', hf', hrelf⟩ := buildTagMaps_defspec raw rel fnames p hp t htp
  have hrc : ':' ∉ t.rel_fname.toList := by rw [hrelf]; exact hrelc f' hf'
  rw [hkey] at hjs
  have heq := jsStartsWith_key t.rel_fname t.name e.1 hrc hef hjs
  rw [← heq] at hmem
  exact hec hmem

/-- C4: chat-file exclusion. (a) In the multi-file case, the ranker's output
walk emits no tag whose relative path is listed in `chat_fnames`; (b) the
tree assembler's loop behaves exactly as if every tag whose relative path is
a chat file's relative path had been dropped from the stream; (c) the
assembled text is empty or a concatenation of header/excerpt blocks all
belonging to non-chat relative paths, so a chat file's name and excerpt
never occur in the final text. Hypotheses: the deduplicated input set has
more than one file, relative paths are colon-free, and the external
PageRank result ranks colon-free node names. -/
theorem c4_chat_file_exclusion (render : String → String → List ℕ → String)
    (raw : String → List RawTag) (rel : String → String)
    (pagerankFn : RGraph → List (String × ℚ)) (sqrtFn : ℕ → ℚ)
    (chat_fnames other_fnames mf mi chat_rel : List String) (tags : List RTag)
    (hmulti : ∀ f, jsDedup (chat_fnames ++ other_fnames) ≠ [f])
    (hrelc : ∀ f ∈ jsDedup (chat_fnames ++ other_fnames), ':' ∉ (rel f).toList)
    (hpr : ∀ q ∈ pagerankFn (buildGraph sqrtFn mi
        (buildTagMaps raw rel (jsDedup (chat_fnames ++ other_fnames))).defines
        (buildTagMaps raw rel (jsDedup (chat_fnames ++ other_fnames))).references),
      ':' ∉ q.1.toList) :
    (∀ t ∈ getRankedTags raw rel pagerankFn sqrtFn chat_fnames other_fnames mf mi,
        t.rel_fname ∉ chat_fnames) ∧
    (∀ (stream : List StreamTag) (st : TTState),
      stream.foldl (processTag render chat_rel) st =
        (stream.filter (fun tag => !chatSkip chat_rel tag)).foldl
          (processTag render chat_rel) st) ∧
    (to_tree render tags chat_rel = "" ∨
      ∃ segs : List (String × Option (String × List ℕ)),
        to_tree render tags chat_rel =
          truncateLines (String.join (segs.map (segText render))) ∧
        ∀ s ∈ segs, s.1 ∉ chat_rel ∧ s.1 ≠ "") := by
  refine ⟨?_, foldl_processTag_filter render chat_rel, to_tree_noChat render tags chat_rel⟩
  intro t ht
  unfold getRankedTags at ht
  rcases hd : jsDedup (chat_fnames ++ other_fnames) with _ | ⟨f1, _ | ⟨f2, fs⟩⟩
  · rw [hd] at ht hrelc hpr
    exact walk_excludes_chat raw rel pagerankFn sqrtFn [] chat_fnames mi hrelc hpr t ht
  · exact absurd hd (hmulti f1)
  · rw [hd] at ht hrelc hpr
    exact walk_excludes_chat raw rel pagerankFn sqrtFn (f1 :: f2 :: fs) chat_fnames mi
      hrelc hpr t ht

/-- Witness for C4 at a concrete two-file call with `chat = ["a"]`. -/
theorem c4_chat_file_exclusion_witness :
    (∀ t ∈ getRankedTags
        (fun f => if f = "b" then [⟨"foo", .defn, 1⟩] else [])
        (fun s => s) (fun _ => []) (fun _ => 0) ["a"] ["b"] [] [],
        t.rel_fname ∉ ["a"]) ∧
    (∀ (stream : List StreamTag) (st : TTState),
      stream.foldl (processTag (fun _ _ _ => "") ["a"]) st =
        (stream.filter (fun tag => !chatSkip ["a"] tag)).foldl
          (processTag (fun _ _ _ => "") ["a"]) st) ∧
    (to_tree (fun _ _ _ => "") [RTag.real ⟨"b", "b", 1, "foo", .defn⟩] ["a"] = "" ∨
      ∃ segs : List (String × Option (String × List ℕ)),
        to_tree (fun _ _ _ => "") [RTag.real ⟨"b", "b", 1, "foo", .defn⟩] ["a"] =
          truncateLines (String.join (segs.map (segText (fun _ _ _ => "")))) ∧
        ∀ s ∈ segs, s.1 ∉ ["a"] ∧ s.1 ≠ "") := by
  refine c4_chat_file_exclusion (fun _ _ _ => "")
    (fun f => if f = "b" then [⟨"foo", .defn, 1⟩] else [])
    (fun s => s) (fun _ => []) (fun _ => 0) ["a"] ["b"] [] [] ["a"]
    [RTag.real ⟨"b", "b", 1, "foo", .defn⟩] ?_ ?_ ?_
  · intro f h
    rw [show jsDedup (["a"] ++ ["b"]) = ["a", "b"] from by decide] at h
    simp at h
  · intro f hf
    rw [show jsDedup (["a"] ++ ["b"]) = ["a", "b"] from by decide] at hf
    rcases List.mem_cons.mp hf with h | h
    · rw [h]; decide
    · rw [List.mem_singleton.mp h]; decide
  · intro q hq
    simp at hq

/-! ## The budget fitter (`get_ranked_tags_map_uncached`, lines 567-637) -/

/-- The `while (lower_bound <= upper_bound)` fitting loop (lines 585-633),
with explicit fuel (`none` = the loop is still running after `fuel`
iterations). `cand m` models `to_tree(ranked_tags.slice(0, m), ...)` and
`tcount` models `token_count`; `B` is `max_map_tokens`. One iteration:
render the first `middle` tags and count tokens; if the relative error is
below `ok_err = 0.15`, record the tree as best and break (returning it);
otherwise record it as best when it is under budget and beats the best
token count so far, move one bound past `middle`, and recompute `middle` as
the floor midpoint of the updated bounds. An exhausted search returns
`best_tree || ''`. -/
def fit_loop (cand : ℤ → String) (tcount : String → ℚ) (B : ℚ) :
    ℕ → ℤ → ℤ → ℤ → Option String → ℚ → Option String
  | 0, _, _, _, _, _ => none
  | fuel + 1, lower, upper, middle, best, best_tokens =>
    if lower > upper then some (best.getD "")
    else
      let tree := cand middle
      let num_tokens := tcount tree
      let pct_err := |num_tokens - B| / B
      if pct_err < 15 / 100 then some tree
      else
        let best' := if num_tokens ≤ B ∧ best_tokens < num_tokens then some tree else best
        let best_tokens' :=
          if num_tokens ≤ B ∧ best_tokens < num_tokens then num_tokens else best_tokens
        if num_tokens < B then
          fit_loop cand tcount B fuel (middle + 1) upper
            (Int.fdiv (middle + 1 + upper) 2) best' best_tokens'
        else
          fit_loop cand tcount B fuel lower (middle - 1)
            (Int.fdiv (lower + (middle - 1)) 2) best' best_tokens'

/-- `fit_loop` instrumented with the list of `middle` values it tried, used
only to state which candidates the search visited. -/
def fit_loop_trace (cand : ℤ → String) (tcount : String → ℚ) (B : ℚ) :
    ℕ → ℤ → ℤ → ℤ → Option String → ℚ → Option String × List ℤ
  | 0, _, _, _, _, _ => (none, [])
  | fuel + 1, lower, upper, middle, best, best_tokens =>
    if lower > upper then (some (best.getD ""), [])
    else
      let tree := cand middle
      let num_tokens := tcount tree
      let pct_err := |num_tokens - B| / B
      if pct_err < 15 / 100 then (some tree, [middle])
      else
        let best' := if num_tokens ≤ B ∧ best_tokens < num_tokens then some tree else best
        let best_tokens' :=
          if num_tokens ≤ B ∧ best_tokens < num_tokens then num_tokens else best_tokens
        let rest :=
          if num_tokens < B then
            fit_loop_trace cand tcount B fuel (middle + 1) upper
              (Int.fdiv (middle + 1 + upper) 2) best' best_tokens'
          else
            fit_loop_trace cand tcount B fuel lower (middle - 1)
              (Int.fdiv (lower + (middle - 1)) 2) best' best_tokens'
        (rest.1, middle :: rest.2)

theorem fit_loop_trace_fst (cand : ℤ → String) (tcount : String → ℚ) (B : ℚ) :
    ∀ (fuel : ℕ) (lower upper middle : ℤ) (best : Option String) (best_tokens : ℚ),
      (fit_loop_trace cand tcount B fuel lower upper middle best best_tokens).1 =
        fit_loop cand tcount B fuel lower upper middle best best_tokens := by
  intro fuel
  induction fuel with
  | zero => intro lower upper middle best best_tokens; rfl
  | succ fuel ih =>
    intro lower upper middle best best_tokens
    rw [fit_loop_trace, fit_loop]
    split
    · rfl
    · dsimp only
      split
      · rfl
      · split
        · exact ih _ _ _ _ _
        · exact ih _ _ _ _ _

/-- How the running best tracks the candidates tried so far (`H`): either
no candidate qualified yet (`best_tree` unset, `best_tree_tokens` 0), or
the best is a tried under-budget candidate maximal among the tried
under-budget ones; in both cases no tried candidate was within the error
threshold (the loop breaks there). -/
def FitInv (cand : ℤ → String) (tcount : String → ℚ) (B : ℚ) (H : List ℤ)
    (best : Option String) (best_tokens : ℚ) : Prop :=
  (best = none ∧ best_tokens = 0 ∧
    ∀ m ∈ H, ¬(|tcount (cand m) - B| / B < 15 / 100) ∧
      (tcount (cand m) ≤ B → tcount (cand m) ≤ 0)) ∨
  (∃ m ∈ H, best = some (cand m) ∧ best_tokens = tcount (cand m) ∧
    tcount (cand m) ≤ B ∧ 0 < best_tokens ∧
    (∀ m' ∈ H, ¬(|tcount (cand m') - B| / B < 15 / 100)) ∧
    ∀ m' ∈ H, tcount (cand m') ≤ B → tcount (cand m') ≤ best_tokens)

/-- The exit contract of the fitting loop relative to the set of tried
candidates: the result is a tried candidate within the 15% error threshold,
or the tried under-budget candidate with the largest token count, or the
empty string when no tried candidate qualified. -/
def FitPost (cand : ℤ → String) (tcount : String → ℚ) (B : ℚ) (H : List ℤ)
    (r : String) : Prop :=
  (∃ m ∈ H, r = cand m ∧ |tcount (cand m) - B| / B < 15 / 100) ∨
  (∃ m ∈ H, r = cand m ∧ tcount (cand m) ≤ B ∧ 0 < tcount (cand m) ∧
    ∀ m' ∈ H, tcount (cand m') ≤ B → tcount (cand m') ≤ tcount (cand m)) ∨
  (r = "" ∧ ∀ m ∈ H, ¬(|tcount (cand m) - B| / B < 15 / 100) ∧
    (tcount (cand m) ≤ B → tcount (cand m) ≤ 0))

theorem fdiv_two_bounds (a b : ℤ) (h : a ≤ b) :
    a ≤ Int.fdiv (a + b) 2 ∧ Int.fdiv (a + b) 2 ≤ b := by
  rw [Int.fdiv_eq_ediv _ (by norm_num)]
  constructor
  · rw [Int.le_ediv_iff_mul_le (by norm_num)]
    omega
  · calc (a + b) / 2 ≤ (2 * b) / 2 := Int.ediv_le_ediv (by norm_num) (by omega)
    _ = b := Int.mul_ediv_cancel_left b (by norm_num)

theorem fit_loop_spec (cand : ℤ → String) (tcount : String → ℚ) (B : ℚ) :
    ∀ (fuel : ℕ) (lower upper middle : ℤ) (best : Option String) (best_tokens : ℚ)
      (H : List ℤ),
      (lower ≤ upper → lower ≤ middle ∧ middle ≤ upper) →
      ((upper - lower + 1).toNat + 1 ≤ fuel) →
      FitInv cand tcount B H best best_tokens →
      ∃ r T, fit_loop_trace cand tcount B fuel lower upper middle best best_tokens =
          (some r, T) ∧ FitPost cand tcount B (H ++ T) r := by
  intro fuel
  induction fuel with
  | zero =>
    intro lower upper middle best best_tokens H _ hfuel _
    omega
  | succ fuel ih =>
    intro lower upper middle best best_tokens H hmid hfuel hinv
    rw [fit_loop_trace]
    by_cases hlu : lower > upper
    · rw [if_pos hlu]
      refine ⟨best.getD "", [], rfl, ?_⟩
      rw [List.append_nil]
      rcases hinv with ⟨hb, hbt, hall⟩ | ⟨m, hm, hb, hbt, hle, hpos, hnerr, hmax⟩
      · rw [hb]
        exact Or.inr (Or.inr ⟨rfl, hall⟩)
      · rw [hb]
        exact Or.inr (Or.inl ⟨m, hm, rfl, hle, hbt ▸ hpos, fun m' hm' h' => hbt ▸ hmax m' hm' h'⟩)
    · rw [if_neg hlu]
      have hle : lower ≤ upper := by omega
      obtain ⟨hml, hmu⟩ := hmid hle
      dsimp only
      by_cases hpct : |tcount (cand middle) - B| / B < 15 / 100
      · rw [if_pos hpct]
        exact ⟨cand middle, [middle], rfl,
          Or.inl ⟨middle, by simp, rfl, hpct⟩⟩
      · rw [if_neg hpct]
        have hnoerr : ∀ m ∈ H, ¬(|tcount (cand m) - B| / B < 15 / 100) := by
          rcases hinv with ⟨_, _, hall⟩ | ⟨_, _, _, _, _, _, hnerr, _⟩
          · exact fun m hm => (hall m hm).1
          · exact hnerr
        by_cases hacc : tcount (cand middle) ≤ B ∧ best_tokens < tcount (cand middle)
        · -- the candidate becomes the new best
          simp only [if_pos hacc]
          have hpos0 : (0 : ℚ) ≤ best_tokens := by
            rcases hinv with ⟨_, hbt, _⟩ | ⟨_, _, _, _, _, hpos, _, _⟩
            · rw [hbt]
            · linarith
          have hinv' : FitInv cand tcount B (H ++ [middle]) (some (cand middle))
              (tcount (cand middle)) := by
            right
            refine ⟨middle, by simp, rfl, rfl, hacc.1, by linarith, ?_, ?_⟩
            · intro m' hm'
              rcases List.mem_append.mp hm' with h1 | h2
              · exact hnoerr m' h1
              · rw [List.mem_singleton.mp h2]
                exact hpct
            · intro m' hm' hbudget
              rcases List.mem_append.mp hm' with h1 | h2
              · rcases hinv with ⟨_, hbt, hall⟩ | ⟨_, _, _, _, _, _, _, hmax⟩
                · have := (hall m' h1).2 hbudget
                  linarith [hacc.2, hpos0]
                · have := hmax m' h1 hbudget
                  linarith [hacc.2]
              · rw [List.mem_singleton.mp h2]
          by_cases hlt : tcount (cand middle) < B
          · rw [if_pos hlt]
            have hb2 : middle + 1 ≤ upper → middle + 1 ≤ Int.fdiv (middle + 1 + upper) 2 ∧
                Int.fdiv (middle + 1 + upper) 2 ≤ upper := fun h => fdiv_two_bounds _ _ h
            obtain ⟨r, T, heq, hpost⟩ := ih (middle + 1) upper
              (Int.fdiv (middle + 1 + upper) 2) (some (cand middle))
              (tcount (cand middle)) (H ++ [middle]) hb2 (by omega) hinv'
            refine ⟨r, middle :: T, ?_, ?_⟩
            · rw [heq]
            · rw [show H ++ middle :: T = (H ++ [middle]) ++ T by simp]
              exact hpost
          · rw [if_neg hlt]
            have hb2 : lower ≤ middle - 1 → lower ≤ Int.fdiv (lower + (middle - 1)) 2 ∧
                Int.fdiv (lower + (middle - 1)) 2 ≤ middle - 1 := fun h => fdiv_two_bounds _ _ h
            obtain ⟨r, T, heq, hpost⟩ := ih lower (middle - 1)
              (Int.fdiv (lower + (middle - 1)) 2) (some (cand middle))
              (tcount (cand middle)) (H ++ [middle]) hb2 (by omega) hinv'
            refine ⟨r, middle :: T, ?_, ?_⟩
            · rw [heq]
            · rw [show H ++ middle :: T = (H ++ [middle]) ++ T by simp]
              exact hpost
        · -- the best is unchanged
          simp only [if_neg hacc]
          have hinv' : FitInv cand tcount B (H ++ [middle]) best best_tokens := by
            rcases hinv with ⟨hb, hbt, hall⟩ | ⟨m, hm, hb, hbt, hleB, hpos, hnerr, hmax⟩
            · left
              refine ⟨hb, hbt, ?_⟩
              intro m' hm'
              rcases List.mem_append.mp hm' with h1 | h2
              · exact hall m' h1
              · rw [List.mem_singleton.mp h2]
                refine ⟨hpct, ?_⟩
                intro hbudget
                by_contra hgt
                exact hacc ⟨hbudget, by rw [hbt]; linarith⟩
            · right
              refine ⟨m, List.mem_append.mpr (Or.inl hm), hb, hbt, hleB, hpos, ?_, ?_⟩
              · intro m' hm'
                rcases List.mem_append.mp hm' with h1 | h2
                · exact hnerr m' h1
                · rw [List.mem_singleton.mp h2]
                  exact hpct
              · intro m' hm' hbudget
                rcases List.mem_append.mp hm' with h1 | h2
                · exact hmax m' h1 hbudget
                · rw [List.mem_singleton.mp h2]
                  by_contra hgt
                  exact hacc ⟨(List.mem_singleton.mp h2 ▸ hbudget), by linarith⟩
          by_cases hlt : tcount (cand middle) < B
          · rw [if_pos hlt]
            obtain ⟨r, T, heq, hpost⟩ := ih (middle + 1) upper
              (Int.fdiv (middle + 1 + upper) 2) best best_tokens (H ++ [middle])
              (fun h => fdiv_two_bounds _ _ h) (by omega) hinv'
            refine ⟨r, middle :: T, ?_, ?_⟩
            · rw [heq]
            · rw [show H ++ middle :: T = (H ++ [middle]) ++ T by simp]
              exact hpost
          · rw [if_neg hlt]
            obtain ⟨r, T, heq, hpost⟩ := ih lower (middle - 1)
              (Int.fdiv (lower + (middle - 1)) 2) best best_tokens (H ++ [middle])
              (fun h => fdiv_two_bounds _ _ h) (by omega) hinv'
            refine ⟨r, middle :: T, ?_, ?_⟩
            · rw [heq]
            · rw [show H ++ middle :: T = (H ++ [middle]) ++ T by simp]
              exact hpost

/-- C3: with the source's initial values (`lower = 0`,
`upper = num_tags`, `middle = min(floor(maxTokens/25), num_tags)`), the
budget-fitting binary search terminates within `num_tags + 2` iterations
(the fuelled loop returns `some`), and the returned text is a tried
candidate whose estimated token count has relative error below 15% of the
budget, or the tried candidate with the largest estimated token count not
exceeding the budget, or the empty string when no tried candidate
qualified. -/
theorem c3_fit_terminates_and_fits (cand : ℤ → String) (tcount : String → ℚ) (B : ℚ)
    (hB : 0 < B) (num_tags : ℕ) :
    ∃ r T,
      fit_loop cand tcount B (num_tags + 2) 0 num_tags
          (min ⌊B / 25⌋ (num_tags : ℤ)) none 0 = some r ∧
      fit_loop_trace cand tcount B (num_tags + 2) 0 num_tags
          (min ⌊B / 25⌋ (num_tags : ℤ)) none 0 = (some r, T) ∧
      ((∃ m ∈ T, r = cand m ∧ |tcount (cand m) - B| / B < 15 / 100) ∨
       (∃ m ∈ T, r = cand m ∧ tcount (cand m) ≤ B ∧ 0 < tcount (cand m) ∧
         ∀ m' ∈ T, tcount (cand m') ≤ B → tcount (cand m') ≤ tcount (cand m)) ∨
       (r = "" ∧ ∀ m ∈ T, ¬(|tcount (cand m) - B| / B < 15 / 100) ∧
         (tcount (cand m) ≤ B → tcount (cand m) ≤ 0))) := by
  have hfloor : (0 : ℤ) ≤ ⌊B / 25⌋ := Int.floor_nonneg.mpr (by positivity)
  obtain ⟨r, T, heq, hpost⟩ := fit_loop_spec cand tcount B (num_tags + 2) 0 num_tags
    (min ⌊B / 25⌋ (num_tags : ℤ)) none 0 []
    (fun _ => ⟨le_min hfloor (by positivity), min_le_right _ _⟩)
    (by omega)
    (Or.inl ⟨rfl, rfl, by simp⟩)
  rw [List.nil_append] at hpost
  exact ⟨r, T, by rw [← fit_loop_trace_fst, heq], heq, hpost⟩

/-- Witness for C3 at a concrete instantiation (`B = 1`, no tags). -/
theorem c3_fit_terminates_and_fits_witness :
    ∃ r T,
      fit_loop (fun _ => "x") (fun s => (s.length : ℚ)) 1 (0 + 2) 0 0
          (min ⌊(1 : ℚ) / 25⌋ ((0 : ℕ) : ℤ)) none 0 = some r ∧
      fit_loop_trace (fun _ => "x") (fun s => (s.length : ℚ)) 1 (0 + 2) 0 0
          (min ⌊(1 : ℚ) / 25⌋ ((0 : ℕ) : ℤ)) none 0 = (some r, T) ∧
      ((∃ m ∈ T, r = (fun _ => "x") m ∧
          |(fun s => ((s.length : ℕ) : ℚ)) ((fun _ => "x") m) - 1| / 1 < 15 / 100) ∨
       (∃ m ∈ T, r = (fun _ => "x") m ∧
          (fun s => ((s.length : ℕ) : ℚ)) ((fun _ => "x") m) ≤ 1 ∧
          0 < (fun s => ((s.length : ℕ) : ℚ)) ((fun _ => "x") m) ∧
         ∀ m' ∈ T, (fun s => ((s.length : ℕ) : ℚ)) ((fun _ => "x") m') ≤ 1 →
           (fun s => ((s.length : ℕ) : ℚ)) ((fun _ => "x") m') ≤
             (fun s => ((s.length : ℕ) : ℚ)) ((fun _ => "x") m)) ∨
       (r = "" ∧ ∀ m ∈ T,
         ¬(|(fun s => ((s.length : ℕ) : ℚ)) ((fun _ => "x") m) - 1| / 1 < 15 / 100) ∧
         ((fun s => ((s.length : ℕ) : ℚ)) ((fun _ => "x") m) ≤ 1 →
           (fun s => ((s.length : ℕ) : ℚ)) ((fun _ => "x") m) ≤ 0))) :=
  c3_fit_terminates_and_fits (fun _ => "x") (fun s => (s.length : ℚ)) 1 (by norm_num) 0

/-! ## The orchestrator (`RepoMap` class, lines 46-189 and 486-637) -/

/-- `this.refresh` (line 50). -/
inductive Refresh
  | auto
  | manual
  | always
  | files
deriving DecidableEq, Repr

/-- The map-cache key of lines 495-501: sorted chat files, sorted other
files, the token budget, and (under `auto` refresh) the sorted mentioned
sets. `JSON.stringify` is injective on this shape, so the tuple itself
models the string key. -/
structure CacheKey where
  chat : List String
  other : List String
  maxTokens : Option ℚ
  mfnames : Option (List String)
  midents : Option (List String)
deriving DecidableEq, Repr

/-- The mutable `RepoMap` instance state read and written by the public
entry point (constructor lines 63-106). `repo_content_tmpl` is the source's
`repo_content_prefix` field (renamed here; `null` or a template containing
`{other}`). The tag/tree caches are value-transparent within one call and
are not modelled; `map_cache` is only ever read in the source (never
written), and `map_processing_time` and `last_map` keep their constructor
values (0 and `null`) because nothing assigns them. -/
structure RMState where
  max_map_tokens : ℚ
  map_mul_no_files : ℚ
  max_context_window : Option ℚ
  repo_content_tmpl : Option String
  refresh : Refresh
  map_processing_time : ℚ
  last_map : Option String
  map_cache : List (CacheKey × String)
deriving DecidableEq, Repr

/-- JS `hay.includes(needle)` on character lists. -/
def containsSub (hay needle : String) : Bool := decide (needle.toList <:+: hay.toList)

/-- JS `String.prototype.toLowerCase` per character. -/
def jsToLower (s : String) : String := String.mk (s.toList.map Char.toLower)

/-- `filterImportantFiles` (lines 774-781). -/
def filterImportantFiles (fnames : List String) : List String :=
  fnames.filter (fun fname =>
    containsSub (jsToLower fname) "readme" ||
    containsSub (jsToLower fname) "tsconfig.json" ||
    containsSub (jsToLower fname) "package.json")

/-- JS `Array.prototype.sort()` on strings (lexicographic, stable). -/
def sortStr (l : List String) : List String := l.mergeSort (fun a b => decide (a ≤ b))

/-- `x || 1024` for the budget default of line 540. -/
def jsOrDefault (q d : ℚ) : ℚ := if q = 0 then d else q

/-- `get_ranked_tags_map_uncached` (lines 531-637): default the budget,
rank the tags, prepend path-only pseudo-tags for important other files not
already covered, and run the binary-search fitter over how many leading
tags to render. The fuel `num_tags + 2` is provably sufficient
(`c3_fit_terminates_and_fits`), so the `getD ""` default for exhausted fuel
is unreachable for a positive budget. `slice(0, middle)` is modelled as
`take middle.toNat`; the loop only evaluates it for `middle` between the
bounds, where they agree. -/
def get_ranked_tags_map_uncached (raw : String → List RawTag) (rel : String → String)
    (render : String → String → List ℕ → String)
    (pagerankFn : RGraph → List (String × ℚ)) (sqrtFn : ℕ → ℚ)
    (st : RMState) (chat_fnames other_fnames : List String)
    (max_map_tokens : Option ℚ) (mentioned_fnames mentioned_idents : List String) :
    String :=
  let B := match max_map_tokens with
    | none => jsOrDefault st.max_map_tokens 1024
    | some b => if b ≤ 0 then jsOrDefault st.max_map_tokens 1024 else b
  let ranked_tags := getRankedTags raw rel pagerankFn sqrtFn chat_fnames other_fnames
    mentioned_fnames mentioned_idents
  let other_rel := sortStr (jsDedup (other_fnames.map rel))
  let special := filterImportantFiles other_rel
  let ranked_fnames := ranked_tags.map Tag.rel_fname
  let additional := (special.filter (fun fn => !(ranked_fnames.contains fn))).map RTag.pathOnly
  let rtags := additional ++ ranked_tags.map RTag.real
  let num_tags := rtags.length
  let chat_rel := jsDedup (chat_fnames.map rel)
  let middle := min ⌊B / 25⌋ (num_tags : ℤ)
  (fit_loop (fun m => to_tree render (rtags.take m.toNat) chat_rel) token_count B
    (num_tags + 2) 0 num_tags middle none 0).getD ""

/-- `get_ranked_tags_map` (lines 486-529): the cache key is built first and
`Array.prototype.sort()` mutates the caller's arrays in place, so the
uncached computation receives the sorted lists. `manual` refresh returns
the last map when truthy; `files` always consults the cache; `auto`
consults it once a previous computation took over a second (never, since
`map_processing_time` is never updated); `always` never does. -/
def get_ranked_tags_map (raw : String → List RawTag) (rel : String → String)
    (render : String → String → List ℕ → String)
    (pagerankFn : RGraph → List (String × ℚ)) (sqrtFn : ℕ → ℚ)
    (st : RMState) (chat_fnames other_fnames : List String)
    (max_map_tokens : Option ℚ) (mentioned_fnames mentioned_idents : List String)
    (force_refresh : Bool) : String :=
  let sortedChat := sortStr chat_fnames
  let sortedOther := sortStr other_fnames
  let key : CacheKey := ⟨sortedChat, sortedOther, max_map_tokens,
    if st.refresh = .auto then some (sortStr mentioned_fnames) else none,
    if st.refresh = .auto then some (sortStr mentioned_idents) else none⟩
  if ¬force_refresh ∧ st.refresh = .manual ∧ optTruthy st.last_map then
    st.last_map.getD ""
  else
    let use_cache := if st.refresh = .always then false
      else if st.refresh = .files then true
      else if st.refresh = .auto then decide (st.map_processing_time > 1) else false
    if ¬force_refresh ∧ use_cache ∧
        (st.map_cache.find? (fun p => p.1 = key)).isSome then
      ((st.map_cache.find? (fun p => p.1 = key)).map Prod.snd).getD ""
    else
      get_ranked_tags_map_uncached raw rel render pagerankFn sqrtFn st
        sortedChat sortedOther max_map_tokens mentioned_fnames mentioned_idents

/-- The budget expansion of lines 137-148: when no chat file is open and a
context window is configured, widen the budget to
`min(floor(budget * multiplier), contextWindow - 4096)` if that target is
positive. -/
def expanded_budget (st : RMState) (chat_files : List String) : ℚ :=
  match st.max_context_window with
  | some cw =>
    if st.max_map_tokens ≠ 0 ∧ cw ≠ 0 then
      let target := min (((⌊st.max_map_tokens * st.map_mul_no_files⌋ : ℤ) : ℚ)) (cw - 4096)
      if chat_files.length = 0 ∧ 0 < target then target else st.max_map_tokens
    else st.max_map_tokens
  | none => st.max_map_tokens

/-- The outcome of the awaited inner computation inside `get_repo_map`'s
`try` block: a value, or a thrown error (distinguishing `RangeError`). -/
inductive JsErr
  | rangeError
  | otherError
deriving DecidableEq, Repr

/-- JS `String.replace` with a string pattern: first occurrence only. -/
def replaceFirstAux (rep : List Char) : List Char → List Char → List Char
  | [], _ => []
  | h :: t, pat =>
    if pat.isPrefixOf (h :: t) then rep ++ (h :: t).drop pat.length
    else h :: replaceFirstAux rep t pat

def replaceFirst (s pat rep : String) : String :=
  String.mk (replaceFirstAux rep.toList s.toList pat.toList)

/-- `get_repo_map` (lines 127-189) around its awaited inner call, which is
passed in as `listing` (`.error e` models a thrown error). The guard
`this.max_map_tokens <= 0 || !other_files` returns `undefined` immediately;
note `!other_files` is false for any array, including the empty one, so
only a null/undefined argument (modelled as `none`) trips it. A falsy inner
result (`''`) is coerced to `undefined` by `if (!files_listing) return;`.
A thrown `RangeError` zeroes the instance budget and returns `undefined`;
any other error returns `undefined` with the state unchanged. A truthy
listing is returned behind the optional `repo_content_prefix` template with
`{other}` substituted. -/
def get_repo_map_core (st : RMState) (chat_files : List String)
    (other_files : Option (List String)) (listing : Except JsErr String) :
    RMState × Option String :=
  if st.max_map_tokens ≤ 0 ∨ other_files = none then (st, none)
  else
    match listing with
    | .error e =>
      if e = .rangeError then ({ st with max_map_tokens := 0 }, none) else (st, none)
    | .ok s =>
      if s = "" then (st, none)
      else
        let other := if chat_files.length ≠ 0 then "other " else ""
        let repo_content := match st.repo_content_tmpl with
          | some tmpl => replaceFirst tmpl "{other}" other
          | none => ""
        (st, some (repo_content ++ s))

/-- The full `get_repo_map` with the pure model of the inner pipeline as
the listing (the model cannot throw; `get_repo_map_core` carries the
exception behaviour for the range-error claim). -/
def get_repo_map (raw : String → List RawTag) (rel : String → String)
    (render : String → String → List ℕ → String)
    (pagerankFn : RGraph → List (String × ℚ)) (sqrtFn : ℕ → ℚ)
    (st : RMState) (chat_files : List String) (other_files : Option (List String))
    (mentioned_fnames mentioned_idents : List String) (force_refresh : Bool) :
    RMState × Option String :=
  get_repo_map_core st chat_files other_files
    (.ok (match other_files with
      | none => ""
      | some others =>
        get_ranked_tags_map raw rel render pagerankFn sqrtFn st chat_files others
          (some (expanded_budget st chat_files)) mentioned_fnames mentioned_idents
          force_refresh))

/-- A sequence of subsequent `get_repo_map` calls on the same instance,
threading the state; each call's inner outcome is supplied with its
arguments. -/
def repoMapRun (st : RMState) :
    List (List String × Option (List String) × Except JsErr String) →
      List (Option String)
  | [] => []
  | (c, o, l) :: rest =>
    (get_repo_map_core st c o l).2 :: repoMapRun (get_repo_map_core st c o l).1 rest

theorem core_zero_budget (st : RMState) (h : st.max_map_tokens ≤ 0)
    (c : List String) (o : Option (List String)) (l : Except JsErr String) :
    get_repo_map_core st c o l = (st, none) := by
  unfold get_repo_map_core
  rw [if_pos (Or.inl h)]

theorem run_zero_budget (st : RMState) (h : st.max_map_tokens ≤ 0) :
    ∀ calls, ∀ out ∈ repoMapRun st calls, out = none := by
  intro calls
  induction calls with
  | nil => intro out hout; simp [repoMapRun] at hout
  | cons p rest ih =>
    obtain ⟨c, o, l⟩ := p
    intro out hout
    simp only [repoMapRun] at hout
    rw [core_zero_budget st h] at hout
    rcases List.mem_cons.mp hout with h1 | h2
    · exact h1
    · exact ih out h2

/-- C5: a `RangeError` thrown during map fitting inside a `get_repo_map`
call makes that call return `undefined` and zero the instance budget, after
which every subsequent call on the instance returns `undefined` (the guard
short-circuits on the zero budget and never restores it): a permanent
circuit breaker. -/
theorem c5_range_error_circuit_breaker (st : RMState) (chat_files : List String)
    (other_files : Option (List String)) (hbudget : 0 < st.max_map_tokens)
    (hother : other_files ≠ none) :
    (get_repo_map_core st chat_files other_files (.error .rangeError)).2 = none ∧
    (get_repo_map_core st chat_files other_files (.error .rangeError)).1 =
      { st with max_map_tokens := 0 } ∧
    (∀ (c : List String) (o : Option (List String)) (l : Except JsErr String),
      get_repo_map_core
          (get_repo_map_core st chat_files other_files (.error .rangeError)).1 c o l =
        ((get_repo_map_core st chat_files other_files (.error .rangeError)).1, none)) ∧
    (∀ calls, ∀ out ∈ repoMapRun
        (get_repo_map_core st chat_files other_files (.error .rangeError)).1 calls,
      out = none) := by
  have hcore : get_repo_map_core st chat_files other_files (.error .rangeError) =
      ({ st with max_map_tokens := 0 }, none) := by
    unfold get_repo_map_core
    rw [if_neg (by push_neg; exact ⟨by linarith, hother⟩)]
    rfl
  rw [hcore]
  refine ⟨rfl, rfl, ?_, ?_⟩
  · intro c o l
    exact core_zero_budget _ (le_refl 0) c o l
  · intro calls out hout
    exact run_zero_budget _ (le_refl 0) calls out hout

/-- Witness for C5 at a concrete instance state and call. -/
theorem c5_range_error_circuit_breaker_witness :
    (get_repo_map_core ⟨1024, 8, none, none, .auto, 0, none, []⟩ ["c"] (some ["o"])
        (.error .rangeError)).2 = none ∧
    (get_repo_map_core ⟨1024, 8, none, none, .auto, 0, none, []⟩ ["c"] (some ["o"])
        (.error .rangeError)).1 =
      { (⟨1024, 8, none, none, .auto, 0, none, []⟩ : RMState) with max_map_tokens := 0 } ∧
    (∀ (c : List String) (o : Option (List String)) (l : Except JsErr String),
      get_repo_map_core
          (get_repo_map_core ⟨1024, 8, none, none, .auto, 0, none, []⟩ ["c"] (some ["o"])
            (.error .rangeError)).1 c o l =
        ((get_repo_map_core ⟨1024, 8, none, none, .auto, 0, none, []⟩ ["c"] (some ["o"])
            (.error .rangeError)).1, none)) ∧
    (∀ calls, ∀ out ∈ repoMapRun
        (get_repo_map_core ⟨1024, 8, none, none, .auto, 0, none, []⟩ ["c"] (some ["o"])
          (.error .rangeError)).1 calls,
      out = none) :=
  c5_range_error_circuit_breaker ⟨1024, 8, none, none, .auto, 0, none, []⟩ ["c"]
    (some ["o"]) (by norm_num) (by simp)

/-- C6 as amended: `get_repo_map` returns `undefined` immediately — running
none of the pipeline, whatever the extraction/ranking collaborators do —
exactly when the configured budget is ≤ 0 or the `other_files` argument
itself is null/undefined; an empty `other_files` array does *not* trip the
guard (`![]` is false in JS). -/
theorem c6_guard_budget_or_null (raw : String → List RawTag) (rel : String → String)
    (render : String → String → List ℕ → String)
    (pagerankFn : RGraph → List (String × ℚ)) (sqrtFn : ℕ → ℚ)
    (st : RMState) (chat_files : List String) (other_files : Option (List String))
    (mf mi : List String) (force : Bool)
    (h : st.max_map_tokens ≤ 0 ∨ other_files = none) :
    get_repo_map raw rel render pagerankFn sqrtFn st chat_files other_files mf mi force =
      (st, none) := by
  unfold get_repo_map get_repo_map_core
  rw [if_pos h]

/-- Witness for the amended C6 guard at a concrete zero-budget call. -/
theorem c6_guard_budget_or_null_witness :
    get_repo_map (fun _ => []) (fun s => s) (fun _ _ _ => "") (fun _ => []) (fun _ => 0)
        ⟨0, 8, none, none, .auto, 0, none, []⟩ [] (some ["x"]) [] [] false =
      (⟨0, 8, none, none, .auto, 0, none, []⟩, none) :=
  c6_guard_budget_or_null (fun _ => []) (fun s => s) (fun _ _ _ => "") (fun _ => [])
    (fun _ => 0) ⟨0, 8, none, none, .auto, 0, none, []⟩ [] (some ["x"]) [] [] false
    (Or.inl (by norm_num))

/-- Counterexample to C6 as stated: with a positive budget, an *empty*
`other_files` list and one chat file, `get_repo_map` does not return
`undefined` — the pipeline runs (the chat file is extracted and ranked via
the single-file shortcut, its tags are skipped as chat tags by `to_tree`,
and the assembler's bare newline survives the falsy check), returning
`"\n"`. -/
theorem c6_empty_other_files_counterexample :
    (get_repo_map (fun f => if f = "A" then [⟨"foo", TagKind.defn, 1⟩] else [])
        (fun f => "rel/" ++ f) (fun _ _ _ => "") (fun _ => []) (fun _ => 0)
        ⟨1024, 8, none, none, .auto, 0, none, []⟩
        ["A"] (some []) [] [] false).2 = some "\n" := by
  have hcand : to_tree (fun _ _ _ => "")
      ((List.map RTag.real [⟨"rel/A", "A", 1, "foo", TagKind.defn⟩]).take (Int.toNat 1))
      (jsDedup (List.map (fun f => "rel/" ++ f) ["A"])) = "\n" := by decide
  have htok : token_count "\n" = 1 / 4 := by
    unfold token_count
    rw [if_pos (by decide)]
    rw [show ("\n".toList.length : ℚ) = 1 from by decide]
  have hmap : get_ranked_tags_map (fun f => if f = "A" then [⟨"foo", TagKind.defn, 1⟩] else [])
      (fun f => "rel/" ++ f) (fun _ _ _ => "") (fun _ => []) (fun _ => 0)
      ⟨1024, 8, none, none, .auto, 0, none, []⟩ ["A"] [] (some 1024) [] [] false = "\n" := by
    unfold get_ranked_tags_map
    rw [if_neg (by decide)]
    dsimp only
    rw [if_neg (by decide)]
    rw [show sortStr ["A"] = ["A"] from List.mergeSort_singleton "A",
      show sortStr ([] : List String) = [] from List.mergeSort_nil]
    unfold get_ranked_tags_map_uncached
    dsimp only
    rw [if_neg (by norm_num : ¬ (1024 : ℚ) ≤ 0)]
    rw [show getRankedTags (fun f => if f = "A" then [⟨"foo", TagKind.defn, 1⟩] else [])
        (fun f => "rel/" ++ f) (fun _ => []) (fun _ => 0) ["A"] [] [] [] =
        [⟨"rel/A", "A", 1, "foo", TagKind.defn⟩] from by decide]
    rw [show sortStr (jsDedup (([] : List String).map (fun f => "rel/" ++ f))) = []
      from List.mergeSort_nil]
    rw [show filterImportantFiles [] = [] from rfl]
    dsimp only [List.filter_nil, List.map_nil, List.nil_append]
    rw [show (List.map RTag.real
        [(⟨"rel/A", "A", 1, "foo", TagKind.defn⟩ : Tag)]).length = 1 from rfl]
    rw [show ((1 : ℕ) : ℤ) = 1 from rfl]
    rw [show min ⌊(1024 : ℚ) / 25⌋ (1 : ℤ) = 1 from by norm_num]
    rw [show (1 + 2 : ℕ) = 2 + 1 from rfl, fit_loop]
    rw [if_neg (by decide : ¬ (0 : ℤ) > 1)]
    dsimp only
    rw [hcand, htok]
    rw [if_neg (show ¬ |(1 : ℚ) / 4 - 1024| / 1024 < 15 / 100 from by
      rw [abs_of_nonpos (by norm_num)]; norm_num)]
    rw [if_pos (by norm_num : (1 : ℚ) / 4 ≤ 1024 ∧ (0 : ℚ) < 1 / 4),
      if_pos (by norm_num : (1 : ℚ) / 4 ≤ 1024 ∧ (0 : ℚ) < 1 / 4),
      if_pos (by norm_num : (1 : ℚ) / 4 < 1024)]
    rw [show (2 : ℕ) = 1 + 1 from rfl, fit_loop]
    rw [if_pos (by decide : (1 + 1 : ℤ) > 1)]
    rfl
  unfold get_repo_map
  dsimp only
  rw [show expanded_budget ⟨1024, 8, none, none, .auto, 0, none, []⟩ ["A"] = 1024 from rfl]
  rw [hmap]
  unfold get_repo_map_core
  rw [if_neg (by push_neg; exact ⟨by norm_num, by simp⟩)]
  dsimp only
  rw [if_neg (by decide : ¬ ("\n" : String) = "")]
  rfl

/-- C7 as amended: the public entry point never returns the empty string —
an inner result of `''` is coerced to `undefined` by the falsy check
`if (!files_listing) return;`, and any returned string is the non-empty
listing behind the optional prefix. -/
theorem c7_never_empty_string (st : RMState) (chat_files : List String)
    (other_files : Option (List String)) (listing : Except JsErr String) :
    ((get_repo_map_core st chat_files other_files listing).2 = none ∨
      ∃ s, (get_repo_map_core st chat_files other_files listing).2 = some s ∧ s ≠ "") ∧
    (∀ s, listing = .ok s → s = "" →
      (get_repo_map_core st chat_files other_files listing).2 = none) := by
  constructor
  · unfold get_repo_map_core
    split
    · exact Or.inl rfl
    · match listing with
      | .error e =>
        dsimp only
        split
        · exact Or.inl rfl
        · exact Or.inl rfl
      | .ok s =>
        dsimp only
        split
        · exact Or.inl rfl
        · next hs =>
          right
          refine ⟨_, rfl, ?_⟩
          intro hc
          apply hs
          have hd := congrArg String.data hc
          rw [String.data_append] at hd
          have h2 := List.append_eq_nil.mp hd
          exact String.ext h2.2
  · intro s hs hempty
    subst hs
    subst hempty
    unfold get_repo_map_core
    split
    · rfl
    · rfl

/-- Counterexample to C7 as stated: an inner computation that renders empty
(`.ok ""`) yields `undefined` from the entry point, not the empty string —
the claimed `undefined` / `""` distinction does not exist at this boundary. -/
theorem c7_empty_render_counterexample :
    (get_repo_map_core ⟨1024, 8, none, none, .auto, 0, none, []⟩ [] (some []) (.ok "")).2 =
      none := by
  norm_num [get_repo_map_core]

/-- Witness for the amended C7 at a concrete state, both for a non-empty
and for an empty inner result. -/
theorem c7_never_empty_string_witness :
    ((get_repo_map_core ⟨1024, 8, none, some "pre {other}", .auto, 0, none, []⟩ []
        (some ["f"]) (.ok "body")).2 = none ∨
      ∃ s, (get_repo_map_core ⟨1024, 8, none, some "pre {other}", .auto, 0, none, []⟩ []
        (some ["f"]) (.ok "body")).2 = some s ∧ s ≠ "") ∧
    (get_repo_map_core ⟨1024, 8, none, some "pre {other}", .auto, 0, none, []⟩ []
        (some ["f"]) (.ok "")).2 = none :=
  ⟨(c7_never_empty_string ⟨1024, 8, none, some "pre {other}", .auto, 0, none, []⟩ []
      (some ["f"]) (.ok "body")).1,
   (c7_never_empty_string ⟨1024, 8, none, some "pre {other}", .auto, 0, none, []⟩ []
      (some ["f"]) (.ok "")).2 "" rfl rfl⟩

/-! ## TreeContext (second module, repomap.ts lines 826-1141)

The renderer's `TreeContext` class.  A tree-sitter syntax node is reduced to
its start row, end row and children (`type`/`text` only feed `verbose`
logging, which we drop along with `console.log`). -/

inductive SNode where
  | mk (startRow endRow : ℕ) (children : List SNode)

def SNode.startRow : SNode → ℕ
  | .mk s _ _ => s

def SNode.endRow : SNode → ℕ
  | .mk _ e _ => e

/-- Replace the element at index `i` (no-op out of range, as the walk never
leaves the valid line range for a real parse tree). -/
def updIdx {α : Type} : List α → ℕ → (α → α) → List α
  | [], _, _ => []
  | x :: xs, 0, f => f x :: xs
  | x :: xs, n + 1, f => x :: updIdx xs n f

/-- `Math.max(...xs)`; JS yields `-Infinity` on an empty list, which is
unreachable at the call sites (they are guarded by / imply non-emptiness),
so `0` stands in as the default. -/
def maxNat (l : List ℕ) : ℕ := l.foldl max 0

structure TCOptions where
  color : Bool
  verbose : Bool
  lineNumber : Bool
  parentContext : Bool
  childContext : Bool
  lastLine : Bool
  margin : ℕ
  markLois : Bool
  headerMax : ℕ
  showTop : Bool
  loiPad : ℕ
deriving DecidableEq

/-- `TreeContextOptions`: the caller-supplied partial options object. -/
structure TCOptionsIn where
  color : Option Bool
  verbose : Option Bool
  lineNumber : Option Bool
  parentContext : Option Bool
  childContext : Option Bool
  lastLine : Option Bool
  margin : Option ℕ
  markLois : Option Bool
  headerMax : Option ℕ
  showTop : Option Bool
  loiPad : Option ℕ
deriving DecidableEq

/-- The `??`-default resolution of the constructor, lines 845-857
(`showTop` is the source's `showTopOfFileParentScope`). -/
def resolveOpts (o : TCOptionsIn) : TCOptions :=
  ⟨o.color.getD false, o.verbose.getD false, o.lineNumber.getD false,
   o.parentContext.getD true, o.childContext.getD true, o.lastLine.getD true,
   o.margin.getD 3, o.markLois.getD true, o.headerMax.getD 10,
   o.showTop.getD true, o.loiPad.getD 1⟩

/-- The options object `render_tree` passes to the constructor at
lines 746-755 of the first module. -/
def renderTreeOptsIn : TCOptionsIn :=
  ⟨some false, none, some false, none, some false, some false, some 0,
   some false, none, some false, some 0⟩

/-- An empty options object (`new TreeContext(f, code)` with defaults). -/
def defOptsIn : TCOptionsIn :=
  ⟨none, none, none, none, none, none, none, none, none, none, none⟩

structure WalkState where
  scopes : List (List ℕ)
  hdr : List ℕ
  nodes : List (List SNode)

mutual

/-- `walkTree` (lines 910-943): push the node at its start line, push
`size, startLine, endLine` onto the header when `size` is truthy, add the
start line to every covered line's scope set, then recurse into children.
Crucially `this.header = Array(numLines).fill([0, 0])` (line 863) makes
every slot of `header` alias ONE shared array, so all pushes land in that
single shared array; `hdr` below collects exactly those pushes. -/
def walkNode (n : SNode) (st : WalkState) : WalkState :=
  match n with
  | .mk s e cs =>
    let st1 : WalkState := { st with nodes := updIdx st.nodes s (fun l => l ++ [SNode.mk s e cs]) }
    let size := e - s
    let st2 : WalkState := if size ≠ 0 then { st1 with hdr := st1.hdr ++ [size, s, e] } else st1
    let st3 : WalkState := (List.range' s (e + 1 - s)).foldl
        (fun acc i => { acc with scopes := updIdx acc.scopes i (fun l => setAdd l s) }) st2
    walkList cs st3

def walkList (l : List SNode) (st : WalkState) : WalkState :=
  match l with
  | [] => st
  | c :: cs => walkList cs (walkNode c st)

end

/-- `this.numLines = this.lines.length + 1` (line 860). -/
def tcNumLines (code : String) : ℕ := (jsSplitNl code).length + 1

def tcWalk (code : String) (t : SNode) : WalkState :=
  walkNode t ⟨List.replicate (tcNumLines code) [], [], List.replicate (tcNumLines code) []⟩

/-- The contents of the single shared header array after the walk: the
`fill` value `[0, 0]` followed by every `push(size, startLine, endLine)`. -/
def tcShared (code : String) (t : SNode) : List ℕ :=
  0 :: 0 :: (tcWalk code t).hdr

/-- `Number(x) || d` on a non-negative integer: `0` is falsy. -/
def jsNumOr (x d : ℕ) : ℕ := if x = 0 then d else x

/-- One iteration of `processHeaders` (lines 893-908) reading the shared
array `S`: every slot of `this.header` still references `S` when its own
iteration runs (each iteration only overwrites its own slot), so slot `i`
becomes `processHeader S headerMax i`. -/
def processHeader (S : List ℕ) (hm : ℕ) (i : ℕ) : ℕ × ℕ :=
  if 1 < S.length then
    let size := jsNumOr (S.getD 0 0) 0
    let headStart := jsNumOr (S.getD 1 0) i
    let headEnd := if hm < size then headStart + hm else headStart + size
    (headStart, headEnd)
  else (i, i + 1)

structure TreeCtx where
  lines : List String
  numLines : ℕ
  scopes : List (List ℕ)
  header : List (ℕ × ℕ)
  nodes : List (List SNode)
  opts : TCOptions

/-- The constructor (lines 840-891): split the code, size the per-line
tables, walk the tree, process headers. -/
def mkTreeContext (code : String) (t : SNode) (oin : TCOptionsIn) : TreeCtx :=
  { lines := jsSplitNl code,
    numLines := tcNumLines code,
    scopes := (tcWalk code t).scopes,
    header := (List.range (tcNumLines code)).map
      (fun i => processHeader (tcShared code t) (resolveOpts oin).headerMax i),
    nodes := (tcWalk code t).nodes,
    opts := resolveOpts oin }

/-- `this.header[lineNum]` (out of range is unreachable in the source; the
default keeps the model total). -/
def tcHeaderAt (tc : TreeCtx) (i : ℕ) : ℕ × ℕ := tc.header.getD i (0, 0)

/-- `line.trim()` truthiness: the line has a non-whitespace character. -/
def hasNonWs (s : String) : Bool := s.toList.any (fun c => !c.isWhitespace)

/-- Mutable state of `add_context` and friends: `showLines` and
`doneParentScopes`, as insertion-ordered sets. -/
structure ACState where
  showLines : List ℕ
  doneParent : List ℕ

/-- `for (let j = headStart; j < headEnd; j++) this.showLines.add(j)`. -/
def addRange (sl : List ℕ) (a b : ℕ) : List ℕ := (List.range' a (b - a)).foldl setAdd sl

/-- `addParentScopes` (lines 1087-1106), fuelled: the recursion through
`getLastLineOfScope` only fires under `options.lastLine`, and `doneParentScopes`
grows at every unfolding, so `numLines + 1` fuel always suffices in the
source's reachable states. -/
def addParentScopes (tc : TreeCtx) : ℕ → ℕ → ACState → ACState
  | 0, _, st => st
  | fuel + 1, i, st =>
    if i ∈ st.doneParent then st else
    let st1 : ACState := { st with doneParent := st.doneParent ++ [i] }
    if tc.scopes.length ≤ i then st1 else
    (tc.scopes.getD i []).foldl (fun s lineNum =>
      let hd := tcHeaderAt tc lineNum
      let s1 : ACState := if 0 < hd.1 ∨ tc.opts.showTop then
          { s with showLines := addRange s.showLines hd.1 hd.2 } else s
      if tc.opts.lastLine then
        addParentScopes tc fuel (maxNat ((tc.nodes.getD lineNum []).map SNode.endRow)) s1
      else s1) st1

/-- `findAllChildren` (lines 1050-1057). -/
def findAllChildren : List SNode → List SNode
  | [] => []
  | SNode.mk s e cs :: ns => SNode.mk s e cs :: (findAllChildren cs ++ findAllChildren ns)

/-- The child sort of lines 1030-1033: descending by spanned size (stable,
as V8's `Array.sort` is). -/
def sortBySizeDesc (l : List SNode) : List SNode :=
  l.mergeSort (fun a b => decide (b.endRow - b.startRow ≤ a.endRow - a.startRow))

/-- `addChildContext` (lines 1016-1048).  `size * 0.10` is modelled as the
exact rational `size / 10`.  The `break` is a skip of the remaining
children: once `showLines` exceeds the cap it never shrinks, so the guard
stays true. -/
def addChildContext (tc : TreeCtx) (fuel : ℕ) (line : ℕ) (st : ACState) : ACState :=
  if (tc.nodes.getD line []).length = 0 then st else
  let lastLine := maxNat ((tc.nodes.getD line []).map SNode.endRow)
  let size := lastLine - line
  if size < 5 then
    { st with showLines := (List.range' line (lastLine + 1 - line)).foldl setAdd st.showLines }
  else
  let children := sortBySizeDesc (findAllChildren (tc.nodes.getD line []))
  let currentlyShowing := st.showLines.length
  let maxToShow : ℚ := max (min ((size : ℚ) / 10) 25) 5
  children.foldl (fun s child =>
    if (currentlyShowing : ℚ) + maxToShow < (s.showLines.length : ℚ) then s
    else addParentScopes tc fuel child.startRow s) st

/-- Ascending insertion for the numeric sort of `closeSmallGaps`. -/
def insertAsc (x : ℕ) : List ℕ → List ℕ
  | [] => [x]
  | y :: ys => if x ≤ y then x :: y :: ys else y :: insertAsc x ys

/-- `Array.from(set).sort((a, b) => a - b)`: the input is duplicate-free, so
insertion sort produces the same (unique) ascending arrangement. -/
def sortNat (l : List ℕ) : List ℕ := l.foldr insertAsc []

/-- `closeSmallGaps` (lines 1063-1085): fill single-line gaps between
consecutive shown lines, then pull in a blank line that directly follows a
shown non-blank line (the blank-line loop tests membership in the evolving
`closedShow`). -/
def closeSmallGaps (lines : List String) (sl : List ℕ) : List ℕ :=
  let sorted := sortNat sl
  let closed := (sorted.zip sorted.tail).foldl
      (fun c p => if p.2 - p.1 = 2 then setAdd c (p.1 + 1) else c) sl
  (List.range lines.length).foldl
      (fun c i =>
        if i ∈ c ∧ hasNonWs (lines.getD i "") = true ∧
            (i : ℤ) < (lines.length : ℤ) - 2 ∧
            hasNonWs (lines.getD (i + 1) "") = false then
          setAdd c (i + 1)
        else c) closed

/-- `add_lines_of_interest` followed by `add_context` (lines 967-1014),
returning the final `showLines`.  The early return on an empty
lines-of-interest set leaves `showLines` at its initial empty value. -/
def add_context (tc : TreeCtx) (lois : List ℕ) : List ℕ :=
  let loiSet := jsDedup lois
  if loiSet.isEmpty then [] else
  let fuel := tc.numLines + 1
  let st0 : ACState := ⟨loiSet, []⟩
  let st1 : ACState := if tc.opts.loiPad ≠ 0 then
      loiSet.foldl (fun s line =>
        ⟨(List.range' (line - tc.opts.loiPad)
              (line + tc.opts.loiPad + 1 - (line - tc.opts.loiPad))).foldl
            (fun l i => if i < tc.numLines then setAdd l i else l) s.showLines,
         s.doneParent⟩) st0
    else st0
  let st2 : ACState := if tc.opts.lastLine then
      let bottomLine := tc.numLines - 2
      addParentScopes tc fuel bottomLine { st1 with showLines := setAdd st1.showLines bottomLine }
    else st1
  let st3 : ACState := if tc.opts.parentContext then
      loiSet.foldl (fun s i => addParentScopes tc fuel i s) st2
    else st2
  let st4 : ACState := if tc.opts.childContext then
      loiSet.foldl (fun s i => addChildContext tc fuel i s) st3
    else st3
  let st5 : ACState := if tc.opts.margin ≠ 0 then
      { st4 with showLines := (List.range tc.opts.margin).foldl setAdd st4.showLines }
    else st4
  closeSmallGaps tc.lines st5.showLines

theorem getD_range_map {α : Type} (f : ℕ → α) (n i : ℕ) (d : α) (h : i < n) :
    ((List.range n).map f).getD i d = f i := by
  rw [List.getD_eq_getElem?_getD, List.getElem?_map, List.getElem?_range h]
  rfl

/-- The shared header array starts with the `fill` value `0, 0`, so the
`Number(headerData[0]) || 0` and `Number(headerData[1]) || i` coercions see
falsy zeroes: every processed header collapses to the empty range `[i, i)`. -/
theorem processHeader_shared (r : List ℕ) (hm i : ℕ) :
    processHeader (0 :: 0 :: r) hm i = (i, i) := by
  have h2 : 1 < (0 :: 0 :: r).length := by simp [List.length_cons]
  unfold processHeader
  rw [if_pos h2]
  simp [jsNumOr]

theorem tcHeaderAt_mk (code : String) (t : SNode) (oin : TCOptionsIn) (i : ℕ) :
    tcHeaderAt (mkTreeContext code t oin) i =
      if i < tcNumLines code then (i, i) else (0, 0) := by
  by_cases h : i < tcNumLines code
  · rw [if_pos h]
    show ((List.range (tcNumLines code)).map _).getD i (0, 0) = (i, i)
    rw [getD_range_map _ _ _ _ h]
    rw [show tcShared code t = 0 :: 0 :: (tcWalk code t).hdr from rfl]
    exact processHeader_shared _ _ _
  · rw [if_neg h]
    apply List.getD_eq_default
    show ((List.range (tcNumLines code)).map
        (fun j => processHeader (tcShared code t) (resolveOpts oin).headerMax j)).length ≤ i
    rw [List.length_map, List.length_range]
    exact Nat.le_of_not_lt h

theorem tcHeaderAt_diag (code : String) (t : SNode) (oin : TCOptionsIn) (i : ℕ) :
    (tcHeaderAt (mkTreeContext code t oin) i).1 = (tcHeaderAt (mkTreeContext code t oin) i).2 := by
  rw [tcHeaderAt_mk]
  split <;> rfl

theorem addRange_self (sl : List ℕ) (a : ℕ) : addRange sl a a = sl := by
  rw [addRange, Nat.sub_self]
  rfl

theorem foldl_showLines {β : Type} (g : ACState → β → ACState)
    (hg : ∀ s b, (g s b).showLines = s.showLines) (l : List β) :
    ∀ st : ACState, (l.foldl g st).showLines = st.showLines := by
  induction l with
  | nil => intro st; rfl
  | cons b bs ih => intro st; rw [List.foldl_cons, ih, hg]

/-- When `lastLine` and `showTopOfFileParentScope` are both off and every
header range is empty (first = second component), `addParentScopes` never
adds a line to `showLines`. -/
theorem addParentScopes_showLines (tc : TreeCtx)
    (hlast : tc.opts.lastLine = false) (htop : tc.opts.showTop = false)
    (hh : ∀ j, (tcHeaderAt tc j).1 = (tcHeaderAt tc j).2)
    (fuel i : ℕ) (st : ACState) :
    (addParentScopes tc fuel i st).showLines = st.showLines := by
  cases fuel with
  | zero => rfl
  | succ n =>
    rw [addParentScopes]
    by_cases hdone : i ∈ st.doneParent
    · rw [if_pos hdone]
    · rw [if_neg hdone]
      by_cases hlen : tc.scopes.length ≤ i
      · rw [if_pos hlen]
      · rw [if_neg hlen]
        apply foldl_showLines
        intro s lineNum
        dsimp only
        rw [hlast]
        rw [if_neg (by simp : ¬ false = true)]
        by_cases hpos : 0 < (tcHeaderAt tc lineNum).1
        · rw [if_pos (Or.inl hpos)]
          show addRange s.showLines (tcHeaderAt tc lineNum).1 (tcHeaderAt tc lineNum).2 =
            s.showLines
          rw [← hh lineNum]
          exact addRange_self _ _
        · rw [if_neg (by simp [htop, hpos])]

/-- **C9** (corrected): the core render path constructs its `TreeContext`
with `margin: 0` and `loiPad: 0` (repomap.ts lines 746-755), and with
`lastLine`, `childContext` and `showTopOfFileParentScope` also off the
shown lines after `add_context` are exactly the close-small-gaps closure of
the lines of interest themselves: no fixed top margin and no padding around
lines of interest.  (The claim's margin 3 / pad 1 are the constructor
defaults, which this path overrides.) -/
theorem c9_render_path_no_margin_no_pad (code : String) (t : SNode) (lois : List ℕ)
    (h : jsDedup lois ≠ []) :
    (resolveOpts renderTreeOptsIn).margin = 0 ∧
    (resolveOpts renderTreeOptsIn).loiPad = 0 ∧
    add_context (mkTreeContext code t renderTreeOptsIn) lois =
      closeSmallGaps (jsSplitNl code) (jsDedup lois) := by
  refine ⟨rfl, rfl, ?_⟩
  unfold add_context
  rw [if_neg (by simp [List.isEmpty_iff, h])]
  dsimp only
  rw [if_neg (show ¬ (mkTreeContext code t renderTreeOptsIn).opts.loiPad ≠ 0
    from fun hx => hx rfl)]
  rw [if_neg (show ¬ (mkTreeContext code t renderTreeOptsIn).opts.lastLine = true
    from Bool.false_ne_true)]
  rw [if_pos (show (mkTreeContext code t renderTreeOptsIn).opts.parentContext = true
    from rfl)]
  rw [if_neg (show ¬ (mkTreeContext code t renderTreeOptsIn).opts.childContext = true
    from Bool.false_ne_true)]
  rw [if_neg (show ¬ (mkTreeContext code t renderTreeOptsIn).opts.margin ≠ 0
    from fun hx => hx rfl)]
  rw [foldl_showLines _ (fun s i => addParentScopes_showLines _ rfl rfl
    (tcHeaderAt_diag code t renderTreeOptsIn) _ i s)]
  rfl

/-- Counterexample to C9 as stated: a ten-line file (all lines non-blank)
with line 5 the only line of interest.  The render path shows only line 5:
the first three lines (the claimed unconditional top margin) and lines 4
and 6 (the claimed ±1 padding) are not shown. -/
theorem c9_margin_pad_counterexample :
    add_context (mkTreeContext "a\nb\nc\nd\ne\nf\ng\nh\ni\nj\n"
        (SNode.mk 0 10 []) renderTreeOptsIn) [5] = [5] ∧
    0 ∉ add_context (mkTreeContext "a\nb\nc\nd\ne\nf\ng\nh\ni\nj\n"
        (SNode.mk 0 10 []) renderTreeOptsIn) [5] ∧
    4 ∉ add_context (mkTreeContext "a\nb\nc\nd\ne\nf\ng\nh\ni\nj\n"
        (SNode.mk 0 10 []) renderTreeOptsIn) [5] ∧
    6 ∉ add_context (mkTreeContext "a\nb\nc\nd\ne\nf\ng\nh\ni\nj\n"
        (SNode.mk 0 10 []) renderTreeOptsIn) [5] := by
  decide

theorem c9_render_path_no_margin_no_pad_witness :
    jsDedup [5] ≠ [] ∧
      add_context (mkTreeContext "x\ny\n" (SNode.mk 0 2 []) renderTreeOptsIn) [5] =
        closeSmallGaps (jsSplitNl "x\ny\n") (jsDedup [5]) :=
  ⟨by decide,
   (c9_render_path_no_margin_no_pad "x\ny\n" (SNode.mk 0 2 []) [5] (by decide)).2.2⟩

/-- **C8**: falsified (code bug).  Because `Array(numLines).fill([0, 0])`
aliases one shared array across every line (line 863), each `walkTree` push
lands in that single array, and `processHeaders` then reads `headerData[0] = 0`
and `headerData[1] = 0` for every line; `Number(0) || 0` and `Number(0) || i`
coerce the falsy zeroes, so the recorded header for every line `i` is the
empty range `(i, i)` — never `[startLine, startLine + min(size, 10))` for a
multi-line node, and never `[i, i + 1)` (that else-branch is dead, since the
shared array always has length ≥ 2). -/
theorem c8_header_ranges_empty (code : String) (t : SNode) (oin : TCOptionsIn)
    (i : ℕ) (h : i < tcNumLines code) :
    tcHeaderAt (mkTreeContext code t oin) i = (i, i) ∧
      ∀ m : ℕ, 0 < m → tcHeaderAt (mkTreeContext code t oin) i ≠ (i, i + m) := by
  constructor
  · rw [tcHeaderAt_mk, if_pos h]
  · intro m hm hcontra
    rw [tcHeaderAt_mk, if_pos h] at hcontra
    have h2 : i = i + m := congrArg Prod.snd hcontra
    omega

/-- A three-line file whose root node spans lines 0-2 (`size = 2 > 0`): the
recorded header for line 0 is the empty `(0, 0)`, not the claimed
`(0, 0 + min 2 10)`. -/
theorem c8_header_ranges_empty_witness :
    0 < tcNumLines "a\nb\nc\n" ∧
      tcHeaderAt (mkTreeContext "a\nb\nc\n" (SNode.mk 0 2 []) defOptsIn) 0 = (0, 0) ∧
      tcHeaderAt (mkTreeContext "a\nb\nc\n" (SNode.mk 0 2 []) defOptsIn) 0 ≠ (0, 0 + min 2 10) :=
  ⟨by decide,
   (c8_header_ranges_empty "a\nb\nc\n" (SNode.mk 0 2 []) defOptsIn 0 (by decide)).1,
   (c8_header_ranges_empty "a\nb\nc\n" (SNode.mk 0 2 []) defOptsIn 0 (by decide)).2
     (min 2 10) (by decide)⟩

end RepoMapModel
